import Mathlib

/-!
Verification of the OpenSCAD flattener (src/run.py) of gridfinity-iphone-charger.

The development shallow-embeds the two core components of run.py over
List Char:

* the recursive resolver parse, which scans a document for
  use <...> / include <...> directives, loads the referenced files,
  recursively flattens them and splices the results back by exact substring
  replacement (Python str.replace, i.e. replace all occurrences), with a
  shared visited set giving once-only inclusion; and
* the scanner extract_modules_and_functions, the line-oriented
  depth-counting extractor of module, function and underscore-variable
  definitions.

Python's unbounded recursion and while-loops are modelled with explicit
fuel arguments (structural recursion, so the kernel can evaluate every
definition on concrete inputs); theorems below establish the fuel bounds
under which the embedding is insensitive to the fuel, mirroring the
termination of the original loops.

Strings are modelled as List Char.  The multiline-anchored regex
(use|include)\s*<([^>]+\.scad)> is embedded as a per-line matcher
(directives are matched at line starts; the embedding, like the spec,
treats a directive as contained in one line).  Python str.replace is
embedded as listReplace, os.path.join/dirname as joinPath/dirName, and the
file system visible to open() as an association list FileSys.
-/

namespace Scad

/-- Whitespace characters of the regex class backslash-s (Python re). -/
def isWs (c : Char) : Bool :=
  c = ' ' || c = '\t' || c = '\n' || c = '\r' || c = '\x0b' || c = '\x0c'

/-- Word characters of the regex class backslash-w (ASCII, as in the source files). -/
def isWordChar (c : Char) : Bool :=
  c.isAlpha || c.isDigit || c = '_'

/-- Drop leading whitespace. -/
def dropWs : List Char → List Char
  | [] => []
  | c :: cs => if isWs c then dropWs cs else c :: cs

/-- Python str.strip(): remove leading and trailing whitespace. -/
def pyStrip (cs : List Char) : List Char :=
  ((dropWs ((dropWs cs).reverse)).reverse)

/-- Membership of a character in a list of characters. -/
def elemB (c : Char) : List Char → Bool
  | [] => false
  | x :: xs => if x = c then true else elemB c xs

/-- Number of occurrences of a character (Python str.count for 1-char needles). -/
def countC (c : Char) : List Char → Nat
  | [] => 0
  | x :: xs => (if x = c then 1 else 0) + countC c xs

/-- Is p a prefix of s? -/
def pfxB : List Char → List Char → Bool
  | [], _ => true
  | _ :: _, [] => false
  | a :: as, b :: bs => if a = b then pfxB as bs else false

/-- Is p a suffix of s? -/
def sfxB (p s : List Char) : Bool := pfxB p.reverse s.reverse

/-- Does p occur as a contiguous substring of s (Python: p in s)? -/
def occursB (p : List Char) : List Char → Bool
  | [] => pfxB p []
  | c :: cs => pfxB p (c :: cs) || occursB p cs

/-- Number of positions of s at which p starts. -/
def countOccB (p : List Char) : List Char → Nat
  | [] => 0
  | c :: cs => (if pfxB p (c :: cs) then 1 else 0) + countOccB p cs

/-- Split at every newline character (Python str.split for the 1-char separator). -/
def splitNl : List Char → List (List Char)
  | [] => [[]]
  | c :: cs =>
    match splitNl cs, decide (c = '\n') with
    | r, true => [] :: r
    | [], false => [[c]]
    | l :: ls, false => (c :: l) :: ls

/-- Python str.splitlines for newline-separated text: like splitNl but a
terminating newline produces no trailing empty line. -/
def pySplitlines (cs : List Char) : List (List Char) :=
  match (splitNl cs).getLast? with
  | some [] => (splitNl cs).dropLast
  | _ => splitNl cs

/-- Python "\n".join. -/
def joinNl (ls : List (List Char)) : List Char :=
  List.intercalate ['\n'] ls

/-- Concatenation of lines, each followed by a newline (the accumulation
format of the function branch of the scanner). -/
def catNl : List (List Char) → List Char
  | [] => []
  | l :: ls => l ++ '\n' :: catNl ls

/-- Python lines[i:j]. -/
def sliceL (lines : List (List Char)) (i j : Nat) : List (List Char) :=
  (lines.drop i).take (j - i)

/-- Fuelled worker for listReplace; fuel at least the length of the string
makes it Python str.replace. -/
def listReplaceGo (p r : List Char) : Nat → List Char → List Char
  | 0, s => s
  | _ + 1, [] => []
  | fuel + 1, c :: cs =>
    if pfxB p (c :: cs) && !p.isEmpty then
      r ++ listReplaceGo p r fuel (cs.drop (p.length - 1))
    else
      c :: listReplaceGo p r fuel cs

/-- Python s.replace(p, r): replace every (left-to-right, non-overlapping)
occurrence of p in s by r.  (The patterns used by the program are never
empty, so the empty-pattern case is irrelevant.) -/
def listReplace (p r s : List Char) : List Char :=
  listReplaceGo p r s.length s

/-! ### The directive matcher

Embedding of the multiline regex (use|include)\s*<([^>]+\.scad)>
anchored at line starts, and of the literal replacement texts of parse. -/

def kwUse : List Char := ("use".data)
def kwInclude : List Char := ("include".data)
def sfxScad : List Char := (".scad".data)

/-- Characters strictly before the first gt-sign, if one exists (the
backtracked match of the group of non-gt characters). -/
def takeUntilGt : List Char → Option (List Char)
  | [] => none
  | c :: cs =>
    if c = '>' then some []
    else
      match takeUntilGt cs with
      | none => none
      | some g => some (c :: g)

/-- Match one line against the directive pattern: optional leading
whitespace, the keyword use or include, optional whitespace, then
lt path gt where path ends in .scad.  Returns the two capture groups. -/
def lineMatch (line : List Char) : Option (List Char × List Char) :=
  let rest := dropWs line
  let kw :=
    if pfxB kwUse rest then some (kwUse, rest.drop 3)
    else if pfxB kwInclude rest then some (kwInclude, rest.drop 7)
    else none
  match kw with
  | none => none
  | some (k, after1) =>
    match dropWs after1 with
    | '<' :: rest2 =>
      match takeUntilGt rest2 with
      | none => none
      | some g => if sfxB sfxScad g then some (k, g) else none
    | _ => none

/-- pattern.findall(scad_content): all directive matches, in source order. -/
def findMatchesL (doc : List Char) : List (List Char × List Char) :=
  (splitNl doc).filterMap lineMatch

/-- The literal replaced text: f-string statement, space, lt, filename, gt. -/
def directiveText (stmt fname : List Char) : List Char :=
  stmt ++ ' ' :: '<' :: (fname ++ ['>'])

/-- The SKIPPING marker comment inserted for an already included file. -/
def skipMarker (fname : List Char) : List Char :=
  ("// --------\n// SKIPPING <".data) ++ fname ++ (">\n// --------\n".data)

/-- The BEGIN/END include marker block around fully inlined content. -/
def includeWrap (fname content : List Char) : List Char :=
  ("// -----\n// BEGIN include <".data) ++ fname ++ (">\n// -----\n".data)
    ++ content
    ++ ("\n// ---\n// END include <".data) ++ fname ++ (">\n// ---\n".data)

/-- The BEGIN/END use marker block around the extracted definitions. -/
def useWrap (fname defs : List Char) : List Char :=
  ("// -----\n// BEGIN use <".data) ++ fname ++ (">\n// -----\n".data)
    ++ defs
    ++ ("\n// ---\n// END use <".data) ++ fname ++ (">\n// ---\n".data)

/-- os.path.join for the relative paths the program builds. -/
def joinPath (root f : List Char) : List Char :=
  if root = [] then f
  else if root.getLast? = some '/' then root ++ f
  else root ++ '/' :: f

/-- os.path.dirname: everything before the last slash (empty if none). -/
def dirName (p : List Char) : List Char :=
  match (p.reverse).dropWhile (fun c => decide (c ≠ '/')) with
  | [] => []
  | _ :: t => t.reverse

/-! ### The scanner extract_modules_and_functions -/

/-- Count of open minus close brackets/parentheses (the depth increment of
the multi-line variable branch). -/
def parenDelta (l : List Char) : Int :=
  (countC '[' l : Int) + (countC '(' l : Int)
    - (countC ']' l : Int) - (countC ')' l : Int)

/-- Count of open minus close braces (the depth increment of the module
branch). -/
def braceDelta (l : List Char) : Int :=
  (countC '{' l : Int) - (countC '}' l : Int)

/-- Running brace balance over the line range [f, j): the brace count the
module branch carries after processing lines f up to j - 1. -/
def braceSumTo (lines : List (List Char)) (f j : Nat) : Int :=
  ((sliceL lines f j).map braceDelta).sum

/-- Does the stripped line start a module definition
(regex: module, whitespace, a word character)? -/
def matchModule (t : List Char) : Bool :=
  pfxB ("module".data) t &&
    (match t.drop 6 with
     | [] => false
     | c :: rest =>
       isWs c &&
         (match dropWs rest with
          | [] => false
          | d :: _ => isWordChar d))

/-- Does the stripped line start an underscore-variable definition
(regex: underscore, word characters, optional whitespace, equals)? -/
def matchVar (t : List Char) : Bool :=
  match t with
  | '_' :: rest =>
    let w := rest.takeWhile isWordChar
    !w.isEmpty &&
      (match dropWs (rest.drop w.length) with
       | '=' :: _ => true
       | _ => false)
  | _ => false

/-- First alternative of the function regex: the keyword function followed
by at least one whitespace character (the name group is optional). -/
def matchFuncAlt1 (t : List Char) : Bool :=
  pfxB ("function".data) t &&
    (match t.drop 8 with
     | [] => false
     | c :: _ => isWs c)

/-- Second alternative of the function regex: underscore-name, equals,
the keyword function, at least one whitespace character. -/
def matchFuncAlt2 (t : List Char) : Bool :=
  match t with
  | '_' :: rest =>
    let w := rest.takeWhile isWordChar
    !w.isEmpty &&
      (match dropWs (rest.drop w.length) with
       | '=' :: r2 =>
         let r3 := dropWs r2
         pfxB ("function".data) r3 &&
           (match r3.drop 8 with
            | [] => false
            | c :: _ => isWs c)
       | _ => false)
  | _ => false

/-- Does the stripped line start a function definition (either form)? -/
def matchFunc (t : List Char) : Bool :=
  matchFuncAlt1 t || matchFuncAlt2 t

/-- Skip a block comment: first index after a line containing the closing
marker (the loop of the block-comment branch). -/
def blockEndF (lines : List (List Char)) : Nat → Nat → Nat
  | 0, i => i + 1
  | fuel + 1, i =>
    if h : i < lines.length then
      if occursB ("*/".data) (lines.get ⟨i, h⟩) then i + 1
      else blockEndF lines fuel (i + 1)
    else i + 1

/-- The brace-counting loop of the module branch: found is whether an
opening brace has been seen, cnt the running brace count.  Returns the
index just past the module definition (or lines.length when the braces
never balance). -/
def moduleEndF (lines : List (List Char)) : Nat → Nat → Bool → Int → Nat
  | 0, i, _, _ => i
  | fuel + 1, i, found, cnt =>
    if h : i < lines.length then
      if (found || elemB '{' (lines.get ⟨i, h⟩)) &&
          decide ((if found || elemB '{' (lines.get ⟨i, h⟩) then
              (if elemB '{' (lines.get ⟨i, h⟩) && !found then 0 else cnt) +
                braceDelta (lines.get ⟨i, h⟩)
            else if elemB '{' (lines.get ⟨i, h⟩) && !found then 0 else cnt) = 0) then
        i + 1
      else
        moduleEndF lines fuel (i + 1) (found || elemB '{' (lines.get ⟨i, h⟩))
          (if found || elemB '{' (lines.get ⟨i, h⟩) then
            (if elemB '{' (lines.get ⟨i, h⟩) && !found then 0 else cnt) +
              braceDelta (lines.get ⟨i, h⟩)
          else if elemB '{' (lines.get ⟨i, h⟩) && !found then 0 else cnt)
    else i

/-- The accumulation loop of the multi-line variable branch.  Returns the
resume index and the accumulated span text. -/
def varLoopF (lines : List (List Char)) :
    Nat → Nat → Int → List Char → Nat × List Char
  | 0, i, _, content => (i + 1, content)
  | fuel + 1, i, depth, content =>
    if h : i < lines.length then
      if depth > 0 || !elemB ';' content then
        let cur := lines.get ⟨i, h⟩
        let content2 := content ++ '\n' :: cur
        let depth2 := depth + parenDelta cur
        if decide (depth2 = 0) && elemB ';' cur then (i + 1, content2)
        else varLoopF lines fuel (i + 1) depth2 content2
      else (i + 1, content)
    else (i + 1, content)

/-- The character scan of one line in the function branch: brackets adjust
the depth; a semicolon at depth zero after the equals sign has been seen
terminates (returns none); otherwise the final depth is returned. -/
def funcLineScan (flag : Bool) : List Char → Int → Option Int
  | [], d => some d
  | c :: cs, d =>
    if c = '(' || c = '[' || c = '{' then funcLineScan flag cs (d + 1)
    else if c = ')' || c = ']' || c = '}' then funcLineScan flag cs (d - 1)
    else if c = ';' && decide (d = 0) && flag then none
    else funcLineScan flag cs d

/-- The line loop of the function branch.  Returns the resume index and
the accumulated span (none when the input ends before a terminating
semicolon is found: the span is silently dropped, as in the source). -/
def funcLoopF (lines : List (List Char)) :
    Nat → Nat → Int → Bool → List Char → Nat × Option (List Char)
  | 0, i, _, _, _ => (i, none)
  | fuel + 1, i, depth, flag, content =>
    if h : i < lines.length then
      let cur := lines.get ⟨i, h⟩
      let content2 := content ++ cur ++ ['\n']
      let flag2 := flag || elemB '=' cur
      match funcLineScan flag2 cur depth with
      | none => (i + 1, some content2)
      | some d2 => funcLoopF lines fuel (i + 1) d2 flag2 content2
    else (i, none)

/-- The main scanning loop of extract_modules_and_functions over the line
list (which already carries the synthetic empty final line). -/
def scanAuxF (lines : List (List Char)) : Nat → Nat → List (List Char)
  | 0, _ => []
  | fuel + 1, i =>
    if h : i < lines.length then
      if pfxB ("//".data) (pyStrip (lines.get ⟨i, h⟩)) ||
          (pyStrip (lines.get ⟨i, h⟩)).isEmpty then
        scanAuxF lines fuel (i + 1)
      else if pfxB ("/*".data) (pyStrip (lines.get ⟨i, h⟩)) then
        scanAuxF lines fuel (blockEndF lines (lines.length + 1) i)
      else if matchModule (pyStrip (lines.get ⟨i, h⟩)) then
        joinNl (sliceL lines i (moduleEndF lines (lines.length + 1) i false 0)) ::
          scanAuxF lines fuel (moduleEndF lines (lines.length + 1) i false 0)
      else if matchVar (pyStrip (lines.get ⟨i, h⟩)) then
        if elemB ';' (lines.get ⟨i, h⟩) then
          lines.get ⟨i, h⟩ :: scanAuxF lines fuel (i + 1)
        else
          match varLoopF lines (lines.length + 1) (i + 1)
              (parenDelta (pyStrip (lines.get ⟨i, h⟩))) (lines.get ⟨i, h⟩) with
          | (j, content) => content :: scanAuxF lines fuel j
      else if matchFunc (pyStrip (lines.get ⟨i, h⟩)) then
        match funcLoopF lines (lines.length + 1) i 0 false [] with
        | (j, some content) => content :: scanAuxF lines fuel j
        | (j, none) => scanAuxF lines fuel j
      else scanAuxF lines fuel (i + 1)
    else []

/-- The padded line list the scanner works on: splitlines plus the
synthetic empty final line. -/
def scanLines (code : List Char) : List (List Char) :=
  pySplitlines code ++ [[]]

/-- extract_modules_and_functions: all module, function and
underscore-variable definition spans of the code, in source order. -/
def extract_modules_and_functions (code : List Char) : List (List Char) :=
  scanAuxF (scanLines code) ((scanLines code).length + 1) 0

/-! ### The resolver parse -/

/-- The file system visible to open(): resolved path to file content. -/
abbrev FileSys := List (List Char × List Char)

def fsLookup : FileSys → List Char → Option (List Char)
  | [], _ => none
  | (q, c) :: rest, p => if q = p then some c else fsLookup rest p

/-- Membership of a path in the visited set (modelled as a list). -/
def elemLB (p : List Char) : List (List Char) → Bool
  | [] => false
  | q :: qs => if q = p then true else elemLB p qs

/-- Outcome of a parse call: the flattened text together with the final
visited set, a propagated FileNotFoundError, or fuel exhaustion (the
latter never happens for the fuel bound established below). -/
inductive POut where
  | ok (flattened : List Char) (visited : List (List Char))
  | fileNotFound (path : List Char)
  | fuelExhausted
deriving DecidableEq

/-- The for-loop of parse over the discovered directive matches:
each match is either replaced by the skip marker (already visited), or its
file is loaded, recursively flattened (recur), and the directive text is
replaced by the wrapped inline content (include) or the wrapped extracted
definitions (use).  A missing file propagates fileNotFound. -/
def parseAux (recur : List Char → List Char → List (List Char) → POut)
    (fs : FileSys) :
    List (List Char × List Char) → List Char → List Char → List (List Char) → POut
  | [], flattened, _, visited => .ok flattened visited
  | (stmt, fname) :: rest, flattened, rootDir, visited =>
    let filepath := joinPath rootDir fname
    if elemLB filepath visited then
      parseAux recur fs rest
        (listReplace (directiveText stmt fname) (skipMarker fname) flattened)
        rootDir visited
    else
      match fsLookup fs filepath with
      | none => .fileNotFound filepath
      | some fileContent =>
        match recur fileContent (dirName filepath) (filepath :: visited) with
        | .ok parsedContent v2 =>
          if stmt = kwInclude then
            parseAux recur fs rest
              (listReplace (directiveText stmt fname)
                (includeWrap fname parsedContent) flattened)
              rootDir v2
          else
            parseAux recur fs rest
              (listReplace (directiveText stmt fname)
                (useWrap fname
                  (List.intercalate ("\n\n".data)
                    (extract_modules_and_functions parsedContent)))
                flattened)
              rootDir v2
        | .fileNotFound p => .fileNotFound p
        | .fuelExhausted => .fuelExhausted

/-- parse: flatten the content, resolving directives recursively against
fs, rooted at rootDir, threading the shared visited set.  The fuel bounds
the recursion depth into included files; parse_terminates below shows the
bound countUnvisited + 1 always suffices. -/
def parse (fs : FileSys) : Nat → List Char → List Char → List (List Char) → POut
  | 0, _, _, _ => .fuelExhausted
  | fuel + 1, content, rootDir, visited =>
    parseAux (parse fs fuel) fs (findMatchesL content) content rootDir visited

/-- Number of file-system entries whose path is not yet visited: an upper
bound on the number of further files a flatten invocation can open. -/
def countUnvisited (fs : FileSys) (visited : List (List Char)) : Nat :=
  (fs.filter (fun e => !elemLB e.1 visited)).length

/-! ### update_modifiers_in_setup and generate_flat_file -/

/-- First index at or after k at which p occurs in s. -/
def findOccFromF (p s : List Char) : Nat → Nat → Option Nat
  | 0, _ => none
  | fuel + 1, k =>
    if k + p.length ≤ s.length then
      if pfxB p (s.drop k) then some k
      else findOccFromF p s fuel (k + 1)
    else none

def findOccFrom (p s : List Char) (k : Nat) : Option Nat :=
  findOccFromF p s (s.length + 1) k

/-- One step of update_modifiers_in_setup: find the first two occurrences
of the modifier marker, and replace the whole marked section (by exact
substring replacement) with the marker-wrapped replacement file content.
A missing marker pair or a missing modifier file leaves the content
unchanged (non-fatal). -/
def applyModifier (fs : FileSys) (content : List Char)
    (m : List Char × List Char) : List Char :=
  let pat := ("/* MODIFIER ".data) ++ m.1 ++ (" */".data)
  match findOccFrom pat content 0 with
  | none => content
  | some k0 =>
    match findOccFrom pat content (k0 + pat.length) with
    | none => content
    | some k1 =>
      match fsLookup fs (("src/modifiers/".data) ++ m.2) with
      | none => content
      | some mc =>
        let section_ := (content.drop k0).take (k1 + pat.length - k0)
        listReplace section_ (pat ++ '\n' :: (mc ++ '\n' :: pat)) content

/-- update_modifiers_in_setup over the modifier mapping. -/
def update_modifiers_in_setup (fs : FileSys) (content : List Char)
    (modifiers : List (List Char × List Char)) : List Char :=
  modifiers.foldl (applyModifier fs) content

/-- Outcome of generate_flat_file: the output file written with the
flattened content, or the propagated error (in which case no output file
is produced). -/
inductive GOut where
  | written (path content : List Char)
  | fileNotFound (path : List Char)
  | fuelExhausted
deriving DecidableEq

/-- generate_flat_file: read the input file, apply the modifiers, flatten
with parse (root directory src), and write the output file.  Errors
propagate; nothing is written on error. -/
def generate_flat_file (fs : FileSys) (inputFile outputFile : List Char)
    (modifiers : List (List Char × List Char)) : GOut :=
  match fsLookup fs inputFile with
  | none => .fileNotFound inputFile
  | some content =>
    match parse fs (fs.length + 1)
        (update_modifiers_in_setup fs content modifiers) ("src".data) [] with
    | .ok flattened _ => .written outputFile flattened
    | .fileNotFound p => .fileNotFound p
    | .fuelExhausted => .fuelExhausted

/-! ### Basic lemmas about the string primitives -/

theorem elemB_iff {c : Char} : ∀ {l : List Char}, elemB c l = true ↔ c ∈ l := by
  intro l
  induction l with
  | nil => simp [elemB]
  | cons x xs ih =>
    simp only [elemB, List.mem_cons]
    by_cases hx : x = c
    · simp [hx]
    · rw [if_neg hx, ih]
      constructor
      · exact Or.inr
      · rintro (h | h)
        · exact absurd h.symm hx
        · exact h

theorem elemB_cons_false {c x : Char} {xs : List Char}
    (h : elemB c (x :: xs) = false) : x ≠ c ∧ elemB c xs = false := by
  by_cases hx : x = c
  · simp [elemB, hx] at h
  · simpa [elemB, hx] using h

theorem elemLB_iff {p : List Char} :
    ∀ {v : List (List Char)}, elemLB p v = true ↔ p ∈ v := by
  intro v
  induction v with
  | nil => simp [elemLB]
  | cons q qs ih =>
    simp only [elemLB, List.mem_cons]
    by_cases hq : q = p
    · simp [hq]
    · rw [if_neg hq, ih]
      constructor
      · exact Or.inr
      · rintro (h | h)
        · exact absurd h.symm hq
        · exact h

theorem pfxB_refl_append : ∀ (p t : List Char), pfxB p (p ++ t) = true := by
  intro p
  induction p with
  | nil => intro t; rfl
  | cons a as ih => intro t; simp [pfxB, ih]

theorem pfxB_length_le : ∀ {p s : List Char}, pfxB p s = true → p.length ≤ s.length := by
  intro p
  induction p with
  | nil => simp
  | cons a as ih =>
    intro s h
    cases s with
    | nil => simp [pfxB] at h
    | cons b bs =>
      by_cases hab : a = b
      · simp only [pfxB, if_pos hab] at h
        simpa [List.length_cons] using Nat.succ_le_succ (ih h)
      · simp [pfxB, hab] at h

theorem pfxB_mem : ∀ {p s : List Char}, pfxB p s = true → ∀ c ∈ p, c ∈ s := by
  intro p
  induction p with
  | nil => intro s _ c hc; cases hc
  | cons a as ih =>
    intro s h c hc
    cases s with
    | nil => simp [pfxB] at h
    | cons b bs =>
      by_cases hab : a = b
      · subst hab
        simp only [pfxB, if_pos rfl] at h
        rcases List.mem_cons.mp hc with rfl | hc
        · exact List.mem_cons_self _ _
        · exact List.mem_cons_of_mem _ (ih h c hc)
      · simp [pfxB, hab] at h

theorem occursB_nil_pat : ∀ (s : List Char), occursB [] s = true := by
  intro s
  cases s with
  | nil => rfl
  | cons c cs => simp [occursB, pfxB]

theorem occursB_of_pfxB {p s : List Char} (h : pfxB p s = true) :
    occursB p s = true := by
  cases s with
  | nil =>
    cases p with
    | nil => rfl
    | cons a as => simp [pfxB] at h
  | cons c cs => simp [occursB, h]

theorem occursB_append_left {p t : List Char} (h : occursB p t = true) :
    ∀ (a : List Char), occursB p (a ++ t) = true := by
  intro a
  induction a with
  | nil => simpa
  | cons x xs ih => simp [occursB, ih]

theorem occursB_mem : ∀ {p s : List Char}, occursB p s = true → ∀ c ∈ p, c ∈ s := by
  intro p s
  induction s with
  | nil =>
    intro h c hc
    cases p with
    | nil => cases hc
    | cons a as => simp [occursB, pfxB] at h
  | cons b bs ih =>
    intro h c hc
    simp only [occursB, Bool.or_eq_true] at h
    rcases h with h | h
    · exact pfxB_mem h c hc
    · exact List.mem_cons_of_mem _ (ih h c hc)

theorem pfxB_cut {c : Char} : ∀ {p : List Char}, elemB c p = false →
    ∀ (a b : List Char), pfxB p (a ++ c :: b) = pfxB p a := by
  intro p
  induction p with
  | nil => intro _ a b; rfl
  | cons h' p' ih =>
    intro hcp a b
    obtain ⟨hne, hcp'⟩ := elemB_cons_false hcp
    cases a with
    | nil =>
      simp [pfxB, hne]
    | cons x a' =>
      simp only [List.cons_append, pfxB]
      by_cases hx : h' = x
      · simp [hx, ih hcp' a' b]
      · simp [hx]

theorem occursB_split {c : Char} {p : List Char} (hcp : elemB c p = false) :
    ∀ (a b : List Char), occursB p (a ++ c :: b) = (occursB p a || occursB p b) := by
  intro a
  induction a with
  | nil =>
    intro b
    cases p with
    | nil => simp [occursB_nil_pat]
    | cons h' p' =>
      obtain ⟨hne, _⟩ := elemB_cons_false hcp
      simp [occursB, pfxB, hne]
  | cons x a' ih =>
    intro b
    have hc : pfxB p (x :: (a' ++ c :: b)) = pfxB p (x :: a') := by
      simpa [List.cons_append] using pfxB_cut hcp (x :: a') b
    simp only [List.cons_append, List.append_eq, occursB, ih b, hc, Bool.or_assoc]

/-! ### Lemmas about listReplace -/

theorem listReplaceGo_fuel (p r : List Char) :
    ∀ (f1 f2 : Nat) (s : List Char), s.length ≤ f1 → s.length ≤ f2 →
      listReplaceGo p r f1 s = listReplaceGo p r f2 s := by
  intro f1
  induction f1 with
  | zero =>
    intro f2 s h1 _
    have hs : s = [] := List.length_eq_zero.mp (Nat.le_zero.mp h1)
    subst hs
    cases f2 <;> rfl
  | succ f1 ih =>
    intro f2 s h1 h2
    cases s with
    | nil => cases f2 <;> rfl
    | cons c cs =>
      cases f2 with
      | zero => exact absurd h2 (by simp)
      | succ f2 =>
        have hd : (cs.drop (p.length - 1)).length ≤ cs.length := by
          rw [List.length_drop]; exact Nat.sub_le _ _
        simp only [listReplaceGo]
        rw [ih f2 cs (Nat.le_of_succ_le_succ h1) (Nat.le_of_succ_le_succ h2),
          ih f2 (cs.drop (p.length - 1))
            (le_trans hd (Nat.le_of_succ_le_succ h1))
            (le_trans hd (Nat.le_of_succ_le_succ h2))]

theorem listReplace_nil (p r : List Char) : listReplace p r [] = [] := rfl

theorem listReplace_cons_pos {p : List Char} (r : List Char) {c : Char}
    {cs : List Char} (hp : p ≠ []) (hpfx : pfxB p (c :: cs) = true) :
    listReplace p r (c :: cs) = r ++ listReplace p r (cs.drop (p.length - 1)) := by
  have hne : p.isEmpty = false := by
    cases p with | nil => exact absurd rfl hp | cons a as => rfl
  have hcond : (pfxB p (c :: cs) && !p.isEmpty) = true := by rw [hpfx, hne]; rfl
  have hd : (cs.drop (p.length - 1)).length ≤ cs.length := by
    rw [List.length_drop]; exact Nat.sub_le _ _
  show listReplaceGo p r (c :: cs).length (c :: cs) = _
  rw [List.length_cons]
  simp only [listReplaceGo, hcond, eq_self_iff_true, if_true]
  exact congrArg (r ++ ·) (listReplaceGo_fuel p r _ _ _ hd le_rfl)

theorem listReplace_cons_neg {p : List Char} (r : List Char) {c : Char}
    {cs : List Char} (hpfx : pfxB p (c :: cs) = false) :
    listReplace p r (c :: cs) = c :: listReplace p r cs := by
  have hcond : (pfxB p (c :: cs) && !p.isEmpty) = false := by rw [hpfx]; rfl
  show listReplaceGo p r (c :: cs).length (c :: cs) = _
  rw [List.length_cons]
  simp only [listReplaceGo, hcond, Bool.false_eq_true, if_false]
  rfl

theorem listReplace_pfx {p : List Char} (r : List Char) (t : List Char)
    (hp : p ≠ []) :
    listReplace p r (p ++ t) = r ++ listReplace p r t := by
  cases p with
  | nil => exact absurd rfl hp
  | cons a as =>
    rw [List.cons_append, listReplace_cons_pos r hp
      (by simpa [List.cons_append] using pfxB_refl_append (a :: as) t)]
    congr 2
    simp

theorem listReplace_skip {h : Char} {p' : List Char} (r : List Char) :
    ∀ {a : List Char}, elemB h a = false → ∀ (t : List Char),
      listReplace (h :: p') r (a ++ t) = a ++ listReplace (h :: p') r t := by
  intro a
  induction a with
  | nil => intro _ t; simp
  | cons x a' ih =>
    intro ha t
    obtain ⟨hne, ha'⟩ := elemB_cons_false ha
    have hxh : h ≠ x := fun hh => hne hh.symm
    have hpfx : pfxB (h :: p') (x :: (a' ++ t)) = false := by
      simp [pfxB, hxh]
    rw [List.cons_append, listReplace_cons_neg r hpfx, ih ha' t]
    rfl

theorem listReplace_none {h : Char} {p' : List Char} (r : List Char)
    {a : List Char} (ha : elemB h a = false) :
    listReplace (h :: p') r a = a := by
  have h2 := @listReplace_skip h p' r a ha []
  simpa [listReplace_nil] using h2

/-! ### Structural invariants of the resolver -/

/-- Invariant satisfied by every recursion level of parse: on success the
visited set only grows, every new entry is a real file-system key, and
no path is ever added twice. -/
def RecInv (recur : List Char → List Char → List (List Char) → POut)
    (fs : FileSys) : Prop :=
  ∀ c r v out v2, recur c r v = POut.ok out v2 →
    v ⊆ v2 ∧ (∀ p ∈ v2, p ∈ v ∨ (fsLookup fs p).isSome = true) ∧
      (v.Nodup → v2.Nodup)

theorem parseAux_ok {recur : List Char → List Char → List (List Char) → POut}
    {fs : FileSys} (hr : RecInv recur fs) :
    ∀ (ms : List (List Char × List Char)) (fl root : List Char)
      (v : List (List Char)) (out : List Char) (v2 : List (List Char)),
      parseAux recur fs ms fl root v = POut.ok out v2 →
      v ⊆ v2 ∧ (∀ p ∈ v2, p ∈ v ∨ (fsLookup fs p).isSome = true) ∧
        (v.Nodup → v2.Nodup) ∧ ∀ m ∈ ms, joinPath root m.2 ∈ v2 := by
  intro ms
  induction ms with
  | nil =>
    intro fl root v out v2 h
    simp only [parseAux] at h
    cases h
    exact ⟨fun x hx => hx, fun p hp => Or.inl hp, fun hn => hn,
      fun m hm => absurd hm (List.not_mem_nil m)⟩
  | cons m rest ih =>
    obtain ⟨stmt, fname⟩ := m
    intro fl root v out v2 h
    simp only [parseAux] at h
    by_cases hvis : elemLB (joinPath root fname) v = true
    · rw [if_pos hvis] at h
      obtain ⟨h1, h2, h3, h4⟩ := ih _ _ _ _ _ h
      refine ⟨h1, h2, h3, fun m hm => ?_⟩
      rcases List.mem_cons.mp hm with rfl | hm
      · exact h1 (elemLB_iff.mp hvis)
      · exact h4 m hm
    · rw [if_neg hvis] at h
      cases hfs : fsLookup fs (joinPath root fname) with
      | none => simp only [hfs] at h; cases h
      | some fc =>
        simp only [hfs] at h
        cases hrec : recur fc (dirName (joinPath root fname))
            (joinPath root fname :: v) with
        | ok pc v' =>
          simp only [hrec] at h
          obtain ⟨hr1, hr2, hr3⟩ := hr _ _ _ _ _ hrec
          have hnotv : joinPath root fname ∉ v :=
            fun hm => hvis (elemLB_iff.mpr hm)
          have hrest : ∃ fl2, parseAux recur fs rest fl2 root v' = POut.ok out v2 := by
            by_cases hstmt : stmt = kwInclude
            · rw [if_pos hstmt] at h; exact ⟨_, h⟩
            · rw [if_neg hstmt] at h; exact ⟨_, h⟩
          obtain ⟨fl2, hrest⟩ := hrest
          obtain ⟨h1, h2, h3, h4⟩ := ih _ _ _ _ _ hrest
          have hvv2 : v ⊆ v2 :=
            fun x hx => h1 (hr1 (List.mem_cons_of_mem _ hx))
          refine ⟨hvv2, fun p hp => ?_, fun hn => ?_, fun m hm => ?_⟩
          · rcases h2 p hp with hp' | hk
            · rcases hr2 p hp' with hp'' | hk
              · rcases List.mem_cons.mp hp'' with rfl | hp3
                · exact Or.inr (by rw [hfs]; rfl)
                · exact Or.inl hp3
              · exact Or.inr hk
            · exact Or.inr hk
          · exact h3 (hr3 (List.nodup_cons.mpr ⟨hnotv, hn⟩))
          · rcases List.mem_cons.mp hm with rfl | hm
            · exact h1 (hr1 (List.mem_cons_self _ _))
            · exact h4 m hm
        | fileNotFound p => simp only [hrec] at h; cases h
        | fuelExhausted => simp only [hrec] at h; cases h

theorem parse_inv : ∀ (fuel : Nat) (fs : FileSys), RecInv (parse fs fuel) fs := by
  intro fuel
  induction fuel with
  | zero => intro fs c r v out v2 h; cases h
  | succ fuel ih =>
    intro fs c r v out v2 h
    simp only [parse] at h
    obtain ⟨h1, h2, h3, _⟩ := parseAux_ok (ih fs) _ _ _ _ _ _ h
    exact ⟨h1, h2, h3⟩

theorem parse_matches_visited {fuel : Nat} {fs : FileSys}
    {c r : List Char} {v : List (List Char)} {out : List Char}
    {v2 : List (List Char)} (h : parse fs (fuel + 1) c r v = POut.ok out v2) :
    ∀ m ∈ findMatchesL c, joinPath r m.2 ∈ v2 := by
  simp only [parse] at h
  exact (parseAux_ok (parse_inv fuel fs) _ _ _ _ _ _ h).2.2.2

theorem parseAux_notFound {recur : List Char → List Char → List (List Char) → POut}
    {fs : FileSys}
    (hr : ∀ c r v p, recur c r v = POut.fileNotFound p → fsLookup fs p = none) :
    ∀ (ms : List (List Char × List Char)) (fl root : List Char)
      (v : List (List Char)) (p : List Char),
      parseAux recur fs ms fl root v = POut.fileNotFound p →
      fsLookup fs p = none := by
  intro ms
  induction ms with
  | nil => intro fl root v p h; simp only [parseAux] at h; cases h
  | cons m rest ih =>
    obtain ⟨stmt, fname⟩ := m
    intro fl root v p h
    simp only [parseAux] at h
    by_cases hvis : elemLB (joinPath root fname) v = true
    · rw [if_pos hvis] at h
      exact ih _ _ _ _ h
    · rw [if_neg hvis] at h
      cases hfs : fsLookup fs (joinPath root fname) with
      | none =>
        simp only [hfs] at h
        cases h
        exact hfs
      | some fc =>
        simp only [hfs] at h
        cases hrec : recur fc (dirName (joinPath root fname))
            (joinPath root fname :: v) with
        | ok pc v' =>
          simp only [hrec] at h
          by_cases hstmt : stmt = kwInclude
          · rw [if_pos hstmt] at h; exact ih _ _ _ _ h
          · rw [if_neg hstmt] at h; exact ih _ _ _ _ h
        | fileNotFound q =>
          simp only [hrec] at h
          cases h
          exact hr _ _ _ _ hrec
        | fuelExhausted => simp only [hrec] at h; cases h

theorem parse_notFound : ∀ (fuel : Nat) (fs : FileSys) (c r : List Char)
    (v : List (List Char)) (p : List Char),
    parse fs fuel c r v = POut.fileNotFound p → fsLookup fs p = none := by
  intro fuel
  induction fuel with
  | zero => intro fs c r v p h; cases h
  | succ fuel ih =>
    intro fs c r v p h
    simp only [parse] at h
    exact parseAux_notFound (fun c r v p => ih fs c r v p) _ _ _ _ _ h

/-! ### Fuel bounds: termination of the resolver -/

theorem countUnvisited_cons (e : List Char × List Char) (rest : FileSys)
    (v : List (List Char)) :
    countUnvisited (e :: rest) v =
      (if elemLB e.1 v = true then 0 else 1) + countUnvisited rest v := by
  simp only [countUnvisited, List.filter_cons]
  cases h : elemLB e.1 v <;> simp [h]; omega

theorem countUnvisited_mono {fs : FileSys} {v w : List (List Char)}
    (hvw : v ⊆ w) : countUnvisited fs w ≤ countUnvisited fs v := by
  induction fs with
  | nil => exact le_rfl
  | cons e rest ih =>
    rw [countUnvisited_cons, countUnvisited_cons]
    by_cases hw : elemLB e.1 w = true
    · rw [if_pos hw]
      by_cases hv : elemLB e.1 v = true
      · rw [if_pos hv]; omega
      · rw [if_neg hv]; omega
    · have hev : e.1 ∉ v := by
        intro hm
        exact hw (elemLB_iff.mpr (hvw hm))
      have hv : ¬elemLB e.1 v = true := fun h2 => hev (elemLB_iff.mp h2)
      rw [if_neg hw, if_neg hv]
      omega

theorem countUnvisited_strict {fs : FileSys} {fp : List Char}
    {v : List (List Char)} (hkey : (fsLookup fs fp).isSome = true)
    (hnot : fp ∉ v) :
    countUnvisited fs (fp :: v) < countUnvisited fs v := by
  induction fs with
  | nil => simp [fsLookup] at hkey
  | cons e rest ih =>
    obtain ⟨q, c⟩ := e
    rw [countUnvisited_cons, countUnvisited_cons]
    have hmono : countUnvisited rest (fp :: v) ≤ countUnvisited rest v :=
      countUnvisited_mono (fun x hx => List.mem_cons_of_mem _ hx)
    by_cases he : q = fp
    · have h1 : elemLB (q, c).1 (fp :: v) = true := by
        simp [elemLB, he]
      have h2 : ¬elemLB (q, c).1 v = true := by
        intro h3
        exact hnot (he ▸ elemLB_iff.mp h3)
      rw [if_pos h1, if_neg h2]
      omega
    · simp only [fsLookup, if_neg he] at hkey
      have hfq : fp ≠ q := fun h2 => he h2.symm
      have hsame : elemLB (q, c).1 (fp :: v) = elemLB (q, c).1 v := by
        simp [elemLB, hfq]
      rw [hsame]
      have hih := ih hkey
      by_cases hv : elemLB (q, c).1 v = true
      · simp only [if_pos hv]
        omega
      · simp only [if_neg hv]
        omega

theorem countUnvisited_le_length (fs : FileSys) (v : List (List Char)) :
    countUnvisited fs v ≤ fs.length :=
  List.length_filter_le _ _

theorem parse_no_fuel : ∀ (fuel : Nat) (fs : FileSys) (c r : List Char)
    (v : List (List Char)), countUnvisited fs v < fuel →
    parse fs fuel c r v ≠ POut.fuelExhausted := by
  intro fuel
  induction fuel with
  | zero => intro fs c r v h; exact absurd h (Nat.not_lt_zero _)
  | succ fuel ih =>
    intro fs c r v hv
    have aux : ∀ (ms : List (List Char × List Char)) (fl root : List Char)
        (w : List (List Char)), countUnvisited fs w ≤ countUnvisited fs v →
        parseAux (parse fs fuel) fs ms fl root w ≠ POut.fuelExhausted := by
      intro ms
      induction ms with
      | nil =>
        intro fl root w _ h
        simp only [parseAux] at h
        cases h
      | cons m rest ihm =>
        obtain ⟨stmt, fname⟩ := m
        intro fl root w hw h
        simp only [parseAux] at h
        by_cases hvis : elemLB (joinPath root fname) w = true
        · rw [if_pos hvis] at h
          exact ihm _ _ _ hw h
        · rw [if_neg hvis] at h
          cases hfs : fsLookup fs (joinPath root fname) with
          | none => simp only [hfs] at h; cases h
          | some fc =>
            simp only [hfs] at h
            have hnot : joinPath root fname ∉ w :=
              fun hm => hvis (elemLB_iff.mpr hm)
            have hlt : countUnvisited fs (joinPath root fname :: w) <
                countUnvisited fs w :=
              countUnvisited_strict (by rw [hfs]; rfl) hnot
            cases hrec : parse fs fuel fc (dirName (joinPath root fname))
                (joinPath root fname :: w) with
            | ok pc v' =>
              simp only [hrec] at h
              have hsub := (parse_inv fuel fs _ _ _ _ _ hrec).1
              have hle : countUnvisited fs v' ≤ countUnvisited fs v :=
                le_trans (countUnvisited_mono hsub)
                  (le_trans (Nat.le_of_lt hlt) hw)
              by_cases hstmt : stmt = kwInclude
              · rw [if_pos hstmt] at h; exact ihm _ _ _ hle h
              · rw [if_neg hstmt] at h; exact ihm _ _ _ hle h
            | fileNotFound p => simp only [hrec] at h; cases h
            | fuelExhausted =>
              have hfuel : countUnvisited fs (joinPath root fname :: w) < fuel := by
                have h1 : countUnvisited fs (joinPath root fname :: w) <
                    countUnvisited fs v := lt_of_lt_of_le hlt hw
                omega
              exact ih fs fc (dirName (joinPath root fname)) _ hfuel hrec
    intro h
    simp only [parse] at h
    exact aux _ _ _ _ le_rfl h

/-! ### Claim theorems -/

set_option maxRecDepth 100000

/-- On a document without directive matches, parse is the identity. -/
theorem parse_no_matches {fs : FileSys} {doc root : List Char}
    {v : List (List Char)} {fuel : Nat}
    (hm : findMatchesL doc = []) (hf : 0 < fuel) :
    parse fs fuel doc root v = POut.ok doc v := by
  cases fuel with
  | zero => exact absurd hf (by simp)
  | succ fuel => simp only [parse, hm, parseAux]

/-- C10: a document containing no directives is returned unchanged by the
resolver (flatten is the identity on directive-free input, and the visited
set is untouched). -/
theorem c10_no_directives_identity {fs : FileSys} {doc root : List Char}
    {v : List (List Char)} {fuel : Nat}
    (hm : findMatchesL doc = []) (hf : 0 < fuel) :
    parse fs fuel doc root v = POut.ok doc v :=
  parse_no_matches hm hf

theorem c10_witness :
    findMatchesL (("module m() { x(); }\n// a comment").data) = [] ∧
    parse [] 1 (("module m() { x(); }\n// a comment").data) (("src").data) [] =
      POut.ok (("module m() { x(); }\n// a comment").data) [] :=
  ⟨by decide, c10_no_directives_identity (by decide) (by decide)⟩

/-- C5: for input include a.scad, where a.scad includes b.scad and b.scad
defines _PI, the flattened output is exactly the _PI definition wrapped in
nested BEGIN/END include marker blocks for both files, in the verbatim
full-inline marker format. -/
theorem c5_nested_include_concrete :
    parse [(("src/a.scad").data, ("include <b.scad>").data),
           (("src/b.scad").data, ("_PI = 3.14159;").data)] 3
        (("include <a.scad>").data) (("src").data) [] =
      POut.ok (("// -----\n// BEGIN include <a.scad>\n// -----\n// -----\n// BEGIN include <b.scad>\n// -----\n_PI = 3.14159;\n// ---\n// END include <b.scad>\n// ---\n\n// ---\n// END include <a.scad>\n// ---\n").data)
        [("src/b.scad").data, ("src/a.scad").data] ∧
    occursB (("_PI = 3.14159").data)
      (("// -----\n// BEGIN include <a.scad>\n// -----\n// -----\n// BEGIN include <b.scad>\n// -----\n_PI = 3.14159;\n// ---\n// END include <b.scad>\n// ---\n\n// ---\n// END include <a.scad>\n// ---\n").data) = true := by
  decide

/-- C4: for every file graph, including cyclic ones, the flatten operation
terminates: any recursion-depth fuel exceeding the number of not yet
visited file-system entries is never exhausted, because each resolved path
is added to the visited set before the recursive call. -/
theorem c4_terminates {fs : FileSys} {c r : List Char}
    {v : List (List Char)} {fuel : Nat} (h : countUnvisited fs v < fuel) :
    parse fs fuel c r v ≠ POut.fuelExhausted :=
  parse_no_fuel fuel fs c r v h

theorem c4_witness :
    countUnvisited [(("src/a.scad").data, ("include <a.scad>").data)] [] < 2 ∧
    parse [(("src/a.scad").data, ("include <a.scad>").data)] 2
        (("include <a.scad>").data) (("src").data) [] ≠ POut.fuelExhausted :=
  ⟨by decide, c4_terminates (by decide)⟩

/-- C3: flattening a document that references a nonexistent file raises
FileNotFound; the error propagates to generate_flat_file, and no output
file is written. -/
theorem c3_missing_file_aborts {fs : FileSys}
    {inputFile outputFile doc : List Char} (stmt f : List Char)
    (hin : fsLookup fs inputFile = some doc)
    (hmem : (stmt, f) ∈ findMatchesL doc)
    (hmiss : fsLookup fs (joinPath (("src").data) f) = none) :
    ∃ p, fsLookup fs p = none ∧
      parse fs (fs.length + 1) doc (("src").data) [] = POut.fileNotFound p ∧
      generate_flat_file fs inputFile outputFile [] = GOut.fileNotFound p ∧
      ∀ op oc, generate_flat_file fs inputFile outputFile [] ≠ GOut.written op oc := by
  cases hp : parse fs (fs.length + 1) doc (("src").data) [] with
  | ok out v2 =>
    exfalso
    have hvis := parse_matches_visited hp (stmt, f) hmem
    rcases (parse_inv (fs.length + 1) fs _ _ _ _ _ hp).2.1 _ hvis with hmem0 | hkey
    · exact absurd hmem0 (List.not_mem_nil _)
    · rw [hmiss] at hkey
      cases hkey
  | fileNotFound p =>
    have hgen : generate_flat_file fs inputFile outputFile [] = GOut.fileNotFound p := by
      simp only [generate_flat_file, hin, update_modifiers_in_setup,
        List.foldl_nil, hp]
    refine ⟨p, parse_notFound _ _ _ _ _ _ hp, rfl, hgen, ?_⟩
    intro op oc
    rw [hgen]
    intro hcon
    cases hcon
  | fuelExhausted =>
    exfalso
    exact parse_no_fuel _ _ _ _ _
      (Nat.lt_succ_of_le (countUnvisited_le_length fs [])) hp

theorem c3_witness :
    ∃ p, fsLookup [(("in.scad").data, ("include <zz.scad>").data)] p = none ∧
      parse [(("in.scad").data, ("include <zz.scad>").data)] 2
          (("include <zz.scad>").data) (("src").data) [] = POut.fileNotFound p ∧
      generate_flat_file [(("in.scad").data, ("include <zz.scad>").data)]
          (("in.scad").data) (("out.scad").data) [] = GOut.fileNotFound p ∧
      ∀ op oc, generate_flat_file [(("in.scad").data, ("include <zz.scad>").data)]
          (("in.scad").data) (("out.scad").data) [] ≠ GOut.written op oc :=
  c3_missing_file_aborts (("include").data) (("zz.scad").data)
    (by decide) (by decide) (by decide)

/-- C9: the claim that successful output never retains raw directive text
fails on the code: for a directive written with two spaces, use  <a.scad>,
the pattern matches (so the file is read and visited) but the replacement
text uses exactly one space, so the run completes successfully with the
raw directive text left unresolved in the output, which still matches the
directive pattern. -/
theorem c9_spacing_leftover :
    parse [(("src/a.scad").data, ("_V = 2;").data)] 2
        (("use  <a.scad>").data) (("src").data) [] =
      POut.ok (("use  <a.scad>").data) [("src/a.scad").data] ∧
    findMatchesL (("use  <a.scad>").data) =
      [(("use").data, ("a.scad").data)] := by
  decide

/-- C1 counterexample: when the identical directive text occurs twice in
one document, the second occurrence is not rendered as the SKIPPING
marker; instead the first processing step replaces all occurrences with
the full expansion, so the file content appears twice in the output. -/
theorem c1_counterexample :
    parse [(("src/a.scad").data, ("_X = 1;").data)] 2
        (("include <a.scad>\ninclude <a.scad>\n").data) (("src").data) [] =
      POut.ok (("// -----\n// BEGIN // --------\n// SKIPPING <a.scad>\n// --------\n\n// -----\n_X = 1;\n// ---\n// END // --------\n// SKIPPING <a.scad>\n// --------\n\n// ---\n\n// -----\n// BEGIN // --------\n// SKIPPING <a.scad>\n// --------\n\n// -----\n_X = 1;\n// ---\n// END // --------\n// SKIPPING <a.scad>\n// --------\n\n// ---\n\n").data)
        [("src/a.scad").data] ∧
    countOccB (("_X = 1;").data)
      (("// -----\n// BEGIN // --------\n// SKIPPING <a.scad>\n// --------\n\n// -----\n_X = 1;\n// ---\n// END // --------\n// SKIPPING <a.scad>\n// --------\n\n// ---\n\n// -----\n// BEGIN // --------\n// SKIPPING <a.scad>\n// --------\n\n// -----\n_X = 1;\n// ---\n// END // --------\n// SKIPPING <a.scad>\n// --------\n\n// ---\n\n").data) = 2 := by
  decide

/-- C1 amended: a file is never expanded twice per flatten invocation
(every path enters the shared visited set at most once: the final visited
set is duplicate-free), and when the repeated reference is reached through
a different document, as in a diamond dependency graph, the second
occurrence renders as the SKIPPING marker while the content is expanded
exactly once.  Identical duplicate directives inside one document are the
exception recorded by the counterexample: there all occurrences receive
the first expansion. -/
theorem c1_amended :
    (∀ (fs : FileSys) (fuel : Nat) (c r : List Char) (v : List (List Char))
        (out : List Char) (v2 : List (List Char)), v.Nodup →
        parse fs fuel c r v = POut.ok out v2 → v2.Nodup) ∧
    (parse [(("src/a.scad").data, ("include <c.scad>\n").data),
            (("src/b.scad").data, ("include <c.scad>\n").data),
            (("src/c.scad").data, ("_PI = 3;").data)] 3
        (("include <a.scad>\ninclude <b.scad>\n").data) (("src").data) [] =
      POut.ok (("// -----\n// BEGIN include <a.scad>\n// -----\n// -----\n// BEGIN include <c.scad>\n// -----\n_PI = 3;\n// ---\n// END include <c.scad>\n// ---\n\n\n// ---\n// END include <a.scad>\n// ---\n\n// -----\n// BEGIN include <b.scad>\n// -----\n// --------\n// SKIPPING <c.scad>\n// --------\n\n\n// ---\n// END include <b.scad>\n// ---\n\n").data)
        [("src/b.scad").data, ("src/c.scad").data, ("src/a.scad").data] ∧
     countOccB (("_PI = 3;").data)
       (("// -----\n// BEGIN include <a.scad>\n// -----\n// -----\n// BEGIN include <c.scad>\n// -----\n_PI = 3;\n// ---\n// END include <c.scad>\n// ---\n\n\n// ---\n// END include <a.scad>\n// ---\n\n// -----\n// BEGIN include <b.scad>\n// -----\n// --------\n// SKIPPING <c.scad>\n// --------\n\n\n// ---\n// END include <b.scad>\n// ---\n\n").data) = 1 ∧
     countOccB (skipMarker (("c.scad").data))
       (("// -----\n// BEGIN include <a.scad>\n// -----\n// -----\n// BEGIN include <c.scad>\n// -----\n_PI = 3;\n// ---\n// END include <c.scad>\n// ---\n\n\n// ---\n// END include <a.scad>\n// ---\n\n// -----\n// BEGIN include <b.scad>\n// -----\n// --------\n// SKIPPING <c.scad>\n// --------\n\n\n// ---\n// END include <b.scad>\n// ---\n\n").data) = 1) := by
  constructor
  · intro fs fuel c r v out v2 hn hp
    exact (parse_inv fuel fs _ _ _ _ _ hp).2.2 hn
  · decide

theorem c1_amended_witness :
    ([("src/a.scad").data] : List (List Char)).Nodup :=
  c1_amended.1 [(("src/a.scad").data, ("_X = 1;").data)] 2
    (("include <a.scad>").data) (("src").data) []
    (("// -----\n// BEGIN include <a.scad>\n// -----\n_X = 1;\n// ---\n// END include <a.scad>\n// ---\n").data)
    [("src/a.scad").data] List.nodup_nil (by decide)

/-! ### C8: exact-substring replacement semantics -/

/-- The one-file system of the C8 scenario. -/
def fs8 : FileSys := [(("src/a.scad").data, ("_V = 2;").data)]

/-- The literal directive text replaced in the C8 scenario. -/
def dir8 : List Char := directiveText kwUse (("a.scad").data)

/-- The replacement block of the first processing step (use wrapper). -/
def use8 : List Char := useWrap (("a.scad").data) (("_V = 2;").data)

/-- The final text standing at both directive sites: the use wrapper with
its marker-internal directive text further replaced by the skip marker at
the second processing step. -/
def rep8 : List Char := listReplace dir8 (skipMarker (("a.scad").data)) use8

/-- parse on any document whose scan finds the a.scad use directive twice
is exactly the composition of the two replace-all passes. -/
theorem c8_run (doc : List Char)
    (hm : findMatchesL doc = [(kwUse, ("a.scad").data), (kwUse, ("a.scad").data)]) :
    parse fs8 2 doc (("src").data) [] =
      POut.ok (listReplace dir8 (skipMarker (("a.scad").data))
        (listReplace dir8 use8 doc)) [("src/a.scad").data] := by
  show parseAux (parse fs8 1) fs8 (findMatchesL doc) doc (("src").data) [] = _
  rw [hm]
  rfl

/-- C8: directive replacement is exact-substring match-and-replace of the
literal directive text against the whole document, so when the identical
directive substring occurs twice, both occurrences end up carrying the
same replacement text.  A, B and C are the surrounding document parts
(keyword-free, hence containing no occurrence of the directive text). -/
theorem c8_exact_substring_replace_all (A B C : List Char)
    (hA : elemB 'u' A = false) (hB : elemB 'u' B = false)
    (hC : elemB 'u' C = false)
    (hm : findMatchesL (A ++ dir8 ++ B ++ dir8 ++ C) =
      [(kwUse, ("a.scad").data), (kwUse, ("a.scad").data)]) :
    parse fs8 2 (A ++ dir8 ++ B ++ dir8 ++ C) (("src").data) [] =
      POut.ok (A ++ rep8 ++ B ++ rep8 ++ C) [("src/a.scad").data] := by
  have hsh : dir8 = 'u' :: (("se <a.scad>").data) := by decide
  have husR : use8 = ("// -----\n// BEGIN ").data ++
      (dir8 ++ ((("\n// -----\n_V = 2;\n// ---\n// END ").data) ++
        (dir8 ++ (("\n// ---\n").data)))) := by decide
  have hrep : rep8 = ("// -----\n// BEGIN ").data ++
      (skipMarker (("a.scad").data) ++
        ((("\n// -----\n_V = 2;\n// ---\n// END ").data) ++
          (skipMarker (("a.scad").data) ++ (("\n// ---\n").data)))) := by decide
  have hru : elemB 'u' (("// -----\n// BEGIN ").data) = false := by decide
  have hrm : elemB 'u' (("\n// -----\n_V = 2;\n// ---\n// END ").data) = false := by
    decide
  have hr3 : elemB 'u' (("\n// ---\n").data) = false := by decide
  have h1 : listReplace dir8 use8 (A ++ (dir8 ++ (B ++ (dir8 ++ C)))) =
      A ++ (use8 ++ (B ++ (use8 ++ C))) := by
    rw [hsh]
    rw [listReplace_skip _ hA, listReplace_pfx _ _ (List.cons_ne_nil _ _),
        listReplace_skip _ hB, listReplace_pfx _ _ (List.cons_ne_nil _ _),
        listReplace_none _ hC]
  have h2 : listReplace dir8 (skipMarker (("a.scad").data))
      (A ++ (use8 ++ (B ++ (use8 ++ C)))) =
      A ++ (rep8 ++ (B ++ (rep8 ++ C))) := by
    rw [husR, hrep]
    simp only [List.append_assoc]
    rw [hsh]
    rw [listReplace_skip _ hA, listReplace_skip _ hru,
        listReplace_pfx _ _ (List.cons_ne_nil _ _),
        listReplace_skip _ hrm, listReplace_pfx _ _ (List.cons_ne_nil _ _),
        listReplace_skip _ hr3, listReplace_skip _ hB, listReplace_skip _ hru,
        listReplace_pfx _ _ (List.cons_ne_nil _ _),
        listReplace_skip _ hrm, listReplace_pfx _ _ (List.cons_ne_nil _ _),
        listReplace_skip _ hr3, listReplace_none _ hC]
  rw [c8_run _ hm]
  simp only [List.append_assoc]
  rw [h1, h2]

theorem c8_witness :
    elemB 'u' (("// header\n").data) = false ∧
    elemB 'u' (("\n// mid\n").data) = false ∧
    elemB 'u' (("\n").data) = false ∧
    findMatchesL ((("// header\n").data) ++ dir8 ++ (("\n// mid\n").data) ++
        dir8 ++ (("\n").data)) =
      [(kwUse, ("a.scad").data), (kwUse, ("a.scad").data)] ∧
    parse fs8 2 ((("// header\n").data) ++ dir8 ++ (("\n// mid\n").data) ++
        dir8 ++ (("\n").data)) (("src").data) [] =
      POut.ok ((("// header\n").data) ++ rep8 ++ (("\n// mid\n").data) ++
        rep8 ++ (("\n").data)) [("src/a.scad").data] :=
  ⟨by decide, by decide, by decide, by decide,
    c8_exact_substring_replace_all _ _ _ (by decide) (by decide) (by decide)
      (by decide)⟩

/-! ### C2: import-only directives carry definitions, not invocations -/

theorem occursB_nil_false {p : List Char} (hp : p ≠ []) :
    occursB p [] = false := by
  cases p with
  | nil => exact absurd rfl hp
  | cons a as => rfl

theorem occursB_false_of_missing_char {p s : List Char} {c : Char}
    (hc : elemB c p = true) (hs : elemB c s = false) :
    occursB p s = false := by
  cases h : occursB p s with
  | false => rfl
  | true =>
    have : c ∈ s := occursB_mem h c (elemB_iff.mp hc)
    rw [elemB_iff.mpr this] at hs
    cases hs

theorem listReplace_self {p : List Char} (r : List Char) (hp : p ≠ []) :
    listReplace p r p = r := by
  have h2 := listReplace_pfx r [] hp
  simpa [listReplace_nil] using h2

theorem intercalate_single (sep x : List Char) :
    List.intercalate sep [x] = x := by
  simp [List.intercalate]

/-- C2: for a use directive whose target file consists of one procedure
(module) definition m recognized by the scanner followed by one bare
top-level invocation line inv, the flattened output is exactly the
use-wrapped definition: it contains the definition text and does not
contain the invocation text. -/
theorem c2_use_definition_only (m inv : List Char)
    (hm : findMatchesL (m ++ '\n' :: inv) = [])
    (hext : extract_modules_and_functions (m ++ '\n' :: inv) = [m])
    (hocc : occursB inv m = false)
    (hnl : elemB '\n' inv = false)
    (hsemi : elemB ';' inv = true) :
    parse [(("src/a.scad").data, m ++ '\n' :: inv)] 2
        (("use <a.scad>").data) (("src").data) [] =
      POut.ok (useWrap (("a.scad").data) m) [("src/a.scad").data] ∧
    occursB m (useWrap (("a.scad").data) m) = true ∧
    occursB inv (useWrap (("a.scad").data) m) = false := by
  have hinvne : inv ≠ [] := by
    intro h
    rw [h] at hsemi
    cases hsemi
  have hwrap : useWrap (("a.scad").data) m =
      (("// -----\n// BEGIN use <a.scad>\n// -----\n").data) ++
      (m ++ (("\n// ---\n// END use <a.scad>\n// ---\n").data)) := by
    simp only [useWrap, List.append_assoc]
    rfl
  refine ⟨?_, ?_, ?_⟩
  · have step1 : parse [(("src/a.scad").data, m ++ '\n' :: inv)] 2
        (("use <a.scad>").data) (("src").data) [] =
        (match parse [(("src/a.scad").data, m ++ '\n' :: inv)] 1
            (m ++ '\n' :: inv) (("src").data) [("src/a.scad").data] with
         | POut.ok pc v2 =>
           POut.ok (listReplace (directiveText kwUse (("a.scad").data))
             (useWrap (("a.scad").data)
               (List.intercalate (("\n\n").data)
                 (extract_modules_and_functions pc)))
             (("use <a.scad>").data)) v2
         | POut.fileNotFound p => POut.fileNotFound p
         | POut.fuelExhausted => POut.fuelExhausted) := rfl
    rw [step1, parse_no_matches hm (Nat.succ_pos 0)]
    show POut.ok (listReplace (directiveText kwUse (("a.scad").data))
        (useWrap (("a.scad").data)
          (List.intercalate (("\n\n").data)
            (extract_modules_and_functions (m ++ '\n' :: inv))))
        (("use <a.scad>").data)) [("src/a.scad").data] = _
    rw [hext, intercalate_single]
    rw [show ("use <a.scad>").data = directiveText kwUse (("a.scad").data) from rfl]
    rw [listReplace_self _ (by decide)]
  · rw [hwrap]
    exact occursB_append_left
      (occursB_of_pfxB (pfxB_refl_append m _)) _
  · have hz : ∀ (s : List Char), elemB ';' s = false → occursB inv s = false :=
      fun s hs => occursB_false_of_missing_char hsemi hs
    have hP : useWrap (("a.scad").data) m =
        ("// -----").data ++ '\n' :: (("// BEGIN use <a.scad>").data ++ '\n' ::
          (("// -----").data ++ '\n' :: (m ++ '\n' :: (("// ---").data ++ '\n' ::
            (("// END use <a.scad>").data ++ '\n' ::
              (("// ---").data ++ '\n' :: ([] : List Char))))))) := by
      simp only [useWrap, List.append_assoc, List.cons_append, List.nil_append]
    rw [hP]
    rw [occursB_split hnl, occursB_split hnl, occursB_split hnl,
        occursB_split hnl, occursB_split hnl, occursB_split hnl,
        occursB_split hnl]
    rw [hz (("// -----").data) (by decide),
        hz (("// BEGIN use <a.scad>").data) (by decide), hocc,
        hz (("// ---").data) (by decide),
        hz (("// END use <a.scad>").data) (by decide),
        occursB_nil_false hinvne]
    rfl

theorem c2_witness :
    parse [(("src/a.scad").data,
        ("module foo() \x7b\n  cube();\n\x7d").data ++ '\n' :: ("foo();").data)] 2
        (("use <a.scad>").data) (("src").data) [] =
      POut.ok (useWrap (("a.scad").data) (("module foo() \x7b\n  cube();\n\x7d").data))
        [("src/a.scad").data] ∧
    occursB (("module foo() \x7b\n  cube();\n\x7d").data)
      (useWrap (("a.scad").data) (("module foo() \x7b\n  cube();\n\x7d").data)) = true ∧
    occursB (("foo();").data)
      (useWrap (("a.scad").data) (("module foo() \x7b\n  cube();\n\x7d").data)) = false :=
  c2_use_definition_only (("module foo() \x7b\n  cube();\n\x7d").data) (("foo();").data)
    (by decide) (by decide) (by decide) (by decide) (by decide)

/-! ### C6: claim-side characterization of the function-definition rule -/

/-- Claim-side combined bracket value of one character. -/
def bracketVal (c : Char) : Int :=
  if c = '(' || c = '[' || c = '{' then 1
  else if c = ')' || c = ']' || c = '}' then -1
  else 0

/-- Claim-side combined depth contribution of a whole line. -/
def lineDelta (l : List Char) : Int := (l.map bracketVal).sum

/-- Claim-side test: line cs contains a semicolon at combined depth zero
(d is the depth carried in from all earlier characters) on a line at or
after the line containing the equals sign (flag). -/
def hasStop (flag : Bool) (d : Int) (cs : List Char) : Bool :=
  (List.range cs.length).any (fun k =>
    decide (cs.getD k ' ' = ';') &&
      (decide (d + ((cs.take k).map bracketVal).sum = 0) && flag))

/-- Claim-side: an equals sign occurs within the first i lines. -/
def eqSeenUpTo (lines : List (List Char)) (i : Nat) : Bool :=
  (lines.take i).any (fun l => elemB '=' l)

/-- Claim-side: combined depth accumulated over the first i whole lines. -/
def prefixDepth (lines : List (List Char)) (i : Nat) : Int :=
  ((lines.take i).map lineDelta).sum

/-- Claim-side end line of a function span scanned from line i: the first
line j carrying a semicolon at combined depth zero on or after the line
containing the equals sign. -/
def claimEnd (lines : List (List Char)) (i : Nat) : Option Nat :=
  (List.range' i (lines.length - i)).find? (fun j =>
    hasStop (eqSeenUpTo lines (j + 1)) (prefixDepth lines j) (lines.getD j []))

theorem lineDelta_cons (c : Char) (cs : List Char) :
    lineDelta (c :: cs) = bracketVal c + lineDelta cs := by
  simp [lineDelta]

theorem hasStop_nil (flag : Bool) (d : Int) : hasStop flag d [] = false := by
  simp [hasStop]

theorem hasStop_iff (flag : Bool) (d : Int) (cs : List Char) :
    hasStop flag d cs = true ↔
      ∃ k, k < cs.length ∧ cs.getD k ' ' = ';' ∧
        d + ((cs.take k).map bracketVal).sum = 0 ∧ flag = true := by
  simp only [hasStop, List.any_eq_true, List.mem_range, Bool.and_eq_true,
    decide_eq_true_eq]

theorem hasStop_cons (flag : Bool) (d : Int) (c : Char) (cs : List Char) :
    hasStop flag d (c :: cs) =
      ((decide (c = ';') && (decide (d = 0) && flag)) ||
        hasStop flag (d + bracketVal c) cs) := by
  have hiff : hasStop flag d (c :: cs) = true ↔
      ((decide (c = ';') && (decide (d = 0) && flag)) ||
        hasStop flag (d + bracketVal c) cs) = true := by
    rw [hasStop_iff]
    simp only [Bool.or_eq_true, Bool.and_eq_true, decide_eq_true_eq,
      hasStop_iff]
    constructor
    · rintro ⟨k, hk, h1, h2, h3⟩
      cases k with
      | zero =>
        left
        simp only [List.getD_cons_zero] at h1
        simp only [List.take_zero, List.map_nil, List.sum_nil, add_zero] at h2
        exact ⟨h1, h2, h3⟩
      | succ k =>
        right
        refine ⟨k, by simpa using hk, by simpa using h1, ?_, h3⟩
        simp only [List.take_succ_cons, List.map_cons, List.sum_cons] at h2
        omega
    · rintro (⟨h1, h2, h3⟩ | ⟨k, hk, h1, h2, h3⟩)
      · refine ⟨0, by simp, by simpa using h1, ?_, h3⟩
        simp [h2]
      · refine ⟨k + 1, by simpa using hk, by simpa using h1, ?_, h3⟩
        simp only [List.take_succ_cons, List.map_cons, List.sum_cons]
        omega
  cases h : ((decide (c = ';') && (decide (d = 0) && flag)) ||
      hasStop flag (d + bracketVal c) cs) with
  | true => exact hiff.mpr h
  | false =>
    cases h2 : hasStop flag d (c :: cs) with
    | false => rfl
    | true => rw [← h, ← hiff.mp h2]

theorem funcLineScan_spec (flag : Bool) :
    ∀ (cs : List Char) (d : Int),
      (funcLineScan flag cs d = none ↔ hasStop flag d cs = true) ∧
      (∀ d2, funcLineScan flag cs d = some d2 → d2 = d + lineDelta cs) := by
  intro cs
  induction cs with
  | nil =>
    intro d
    refine ⟨⟨(fun h => by cases h), (fun h => by rw [hasStop_nil] at h; cases h)⟩, ?_⟩
    intro d2 h
    cases h
    simp [lineDelta]
  | cons c cs ih =>
    intro d
    rw [hasStop_cons]
    simp only [funcLineScan]
    by_cases h1 : (c = '(' || c = '[' || c = '{') = true
    · rw [if_pos h1]
      simp only [Bool.or_eq_true, decide_eq_true_eq] at h1
      have hne : decide (c = ';') = false := by
        rcases h1 with (rfl | rfl) | rfl <;> decide
      have hbv : bracketVal c = 1 := by
        rcases h1 with (rfl | rfl) | rfl <;> decide
      rw [hne, hbv]
      simp only [Bool.false_and, Bool.false_or]
      refine ⟨(ih (d + 1)).1, ?_⟩
      intro d2 h
      rw [(ih (d + 1)).2 d2 h, lineDelta_cons, hbv]
      omega
    · rw [if_neg h1]
      by_cases h2 : (c = ')' || c = ']' || c = '}') = true
      · rw [if_pos h2]
        simp only [Bool.or_eq_true, decide_eq_true_eq] at h2
        have hne : decide (c = ';') = false := by
          rcases h2 with (rfl | rfl) | rfl <;> decide
        have hbv : bracketVal c = -1 := by
          rcases h2 with (rfl | rfl) | rfl <;> decide
        rw [hne, hbv]
        simp only [Bool.false_and, Bool.false_or]
        refine ⟨(ih (d - 1)).1, ?_⟩
        intro d2 h
        rw [(ih (d - 1)).2 d2 h, lineDelta_cons, hbv]
        omega
      · rw [if_neg h2]
        have hbv : bracketVal c = 0 := by
          simp only [bracketVal]
          rw [if_neg (fun hc => h1 hc), if_neg (fun hc => h2 hc)]
        by_cases h3 : (c = ';' && decide (d = 0) && flag) = true
        · rw [if_pos h3]
          have hstop : (decide (c = ';') && (decide (d = 0) && flag)) = true := by
            simp only [Bool.and_eq_true] at h3 ⊢
            exact ⟨h3.1.1, h3.1.2, h3.2⟩
          rw [hstop]
          refine ⟨?_, ?_⟩
          · simp
          · intro d2 h
            cases h
        · rw [if_neg h3]
          have hstop : (decide (c = ';') && (decide (d = 0) && flag)) = false := by
            cases hq : (decide (c = ';') && (decide (d = 0) && flag)) with
            | false => rfl
            | true =>
              exfalso
              apply h3
              simp only [Bool.and_eq_true] at hq ⊢
              exact ⟨⟨hq.1, hq.2.1⟩, hq.2.2⟩
          rw [hstop, hbv]
          simp only [Bool.false_or, add_zero]
          refine ⟨(ih d).1, ?_⟩
          intro d2 h
          rw [(ih d).2 d2 h, lineDelta_cons, hbv]
          omega

/-! ### Bridging the function-branch line loop with the claim-side rule -/

theorem eqSeenUpTo_succ {lines : List (List Char)} {i : Nat}
    (h : i < lines.length) :
    eqSeenUpTo lines (i + 1) =
      (eqSeenUpTo lines i || elemB '=' (lines.get ⟨i, h⟩)) := by
  unfold eqSeenUpTo
  rw [List.take_succ, List.getElem?_eq_getElem h, List.any_append]
  simp only [Option.toList_some, List.any_cons, List.any_nil, Bool.or_false,
    List.get_eq_getElem]

theorem prefixDepth_succ {lines : List (List Char)} {i : Nat}
    (h : i < lines.length) :
    prefixDepth lines (i + 1) =
      prefixDepth lines i + lineDelta (lines.get ⟨i, h⟩) := by
  unfold prefixDepth
  rw [List.take_succ, List.getElem?_eq_getElem h, List.map_append, List.sum_append]
  simp only [Option.toList_some, List.map_cons, List.map_nil, List.sum_cons,
    List.sum_nil, add_zero, List.get_eq_getElem]

theorem getD_eq_get {lines : List (List Char)} {i : Nat}
    (h : i < lines.length) : lines.getD i [] = lines.get ⟨i, h⟩ := by
  simp [List.getD_eq_getElem?_getD, List.getElem?_eq_getElem h,
    List.get_eq_getElem]

theorem sliceL_single {lines : List (List Char)} {i : Nat}
    (h : i < lines.length) : sliceL lines i (i + 1) = [lines.get ⟨i, h⟩] := by
  simp only [sliceL, List.drop_eq_getElem_cons h, List.get_eq_getElem,
    Nat.add_sub_cancel_left]
  rfl

theorem sliceL_cons {lines : List (List Char)} {i j : Nat}
    (h : i < lines.length) (hij : i ≤ j) :
    sliceL lines i (j + 1) = lines.get ⟨i, h⟩ :: sliceL lines (i + 1) (j + 1) := by
  simp only [sliceL, List.drop_eq_getElem_cons h, List.get_eq_getElem]
  rw [show j + 1 - i = (j + 1 - (i + 1)) + 1 from by omega]
  rfl

theorem claimEnd_none_of_ge {lines : List (List Char)} {i : Nat}
    (h : lines.length ≤ i) : claimEnd lines i = none := by
  unfold claimEnd
  rw [show lines.length - i = 0 from by omega]
  rfl

theorem claimEnd_stop {lines : List (List Char)} {i : Nat}
    (h : i < lines.length)
    (hs : hasStop (eqSeenUpTo lines (i + 1)) (prefixDepth lines i)
      (lines.getD i []) = true) :
    claimEnd lines i = some i := by
  unfold claimEnd
  rw [show lines.length - i = (lines.length - (i + 1)) + 1 from by omega,
    List.range'_succ]
  exact List.find?_cons_of_pos _ hs

theorem claimEnd_not_stop {lines : List (List Char)} {i : Nat}
    (h : i < lines.length)
    (hs : hasStop (eqSeenUpTo lines (i + 1)) (prefixDepth lines i)
      (lines.getD i []) = false) :
    claimEnd lines i = claimEnd lines (i + 1) := by
  unfold claimEnd
  rw [show lines.length - i = (lines.length - (i + 1)) + 1 from by omega,
    List.range'_succ]
  exact List.find?_cons_of_neg _ (by rw [hs]; intro hc; cases hc)

theorem claimEnd_bounds {lines : List (List Char)} {i j : Nat}
    (h : claimEnd lines i = some j) : i ≤ j ∧ j < lines.length := by
  unfold claimEnd at h
  have hmem := List.mem_of_find?_eq_some h
  rw [List.mem_range'_1] at hmem
  omega

/-- The function-branch line loop realizes the claim-side rule: starting
at line i with the accumulated depth and equals-flag of the first i lines,
it stops exactly at the claim-side end line, accumulating all lines up to
and including it (each with a trailing newline), and it drops the span
when no claim-side end line exists. -/
theorem funcLoopF_claim (lines : List (List Char)) :
    ∀ (fuel i : Nat) (content : List Char),
      lines.length ≤ fuel + i → i ≤ lines.length →
      funcLoopF lines fuel i (prefixDepth lines i) (eqSeenUpTo lines i) content =
        (match claimEnd lines i with
         | some j => (j + 1, some (content ++ catNl (sliceL lines i (j + 1))))
         | none => (lines.length, none)) := by
  intro fuel
  induction fuel with
  | zero =>
    intro i content hfi hil
    have hi : i = lines.length := by omega
    subst hi
    rw [claimEnd_none_of_ge le_rfl]
    rfl
  | succ fuel ih =>
    intro i content hfi hil
    by_cases h : i < lines.length
    · have hflag2 : (eqSeenUpTo lines i || elemB '=' (lines.get ⟨i, h⟩)) =
          eqSeenUpTo lines (i + 1) := (eqSeenUpTo_succ h).symm
      simp only [funcLoopF]
      rw [dif_pos h, hflag2]
      cases hscan : funcLineScan (eqSeenUpTo lines (i + 1)) (lines.get ⟨i, h⟩)
          (prefixDepth lines i) with
      | none =>
        have hstop : hasStop (eqSeenUpTo lines (i + 1)) (prefixDepth lines i)
            (lines.getD i []) = true := by
          rw [getD_eq_get h]
          exact (funcLineScan_spec _ _ _).1.mp hscan
        rw [claimEnd_stop h hstop]
        show ((i + 1 : Nat), some (content ++ lines.get ⟨i, h⟩ ++ ['\n'])) =
          ((i + 1 : Nat), some (content ++ catNl (sliceL lines i (i + 1))))
        rw [sliceL_single h]
        simp [catNl, List.append_assoc]
      | some d2 =>
        have hd2 : d2 = prefixDepth lines (i + 1) := by
          rw [(funcLineScan_spec _ _ _).2 d2 hscan, prefixDepth_succ h]
        have hnostop : hasStop (eqSeenUpTo lines (i + 1)) (prefixDepth lines i)
            (lines.getD i []) = false := by
          rw [getD_eq_get h]
          cases hq : hasStop (eqSeenUpTo lines (i + 1)) (prefixDepth lines i)
              (lines.get ⟨i, h⟩) with
          | false => rfl
          | true =>
            rw [(funcLineScan_spec _ _ _).1.mpr hq] at hscan
            cases hscan
        rw [claimEnd_not_stop h hnostop, hd2]
        show funcLoopF lines fuel (i + 1) (prefixDepth lines (i + 1))
            (eqSeenUpTo lines (i + 1)) (content ++ lines.get ⟨i, h⟩ ++ ['\n']) =
          (match claimEnd lines (i + 1) with
           | some j => (j + 1, some (content ++ catNl (sliceL lines i (j + 1))))
           | none => (lines.length, none))
        rw [ih (i + 1) (content ++ lines.get ⟨i, h⟩ ++ ['\n']) (by omega) (by omega)]
        cases hce : claimEnd lines (i + 1) with
        | none => rfl
        | some j =>
          obtain ⟨hij, hjlen⟩ := claimEnd_bounds hce
          show ((j + 1 : Nat), some ((content ++ lines.get ⟨i, h⟩ ++ ['\n']) ++
              catNl (sliceL lines (i + 1) (j + 1)))) =
            ((j + 1 : Nat), some (content ++ catNl (sliceL lines i (j + 1))))
          rw [sliceL_cons h (by omega)]
          simp [catNl, List.append_assoc]
    · have hi : i = lines.length := by omega
      subst hi
      rw [claimEnd_none_of_ge le_rfl]
      simp only [funcLoopF]
      rw [dif_neg (lt_irrefl _)]

theorem pfxB_cons_neg {a c : Char} (h : a ≠ c) (as s : List Char) :
    pfxB (a :: as) (c :: s) = false := by
  simp [pfxB, h]

theorem pfxB_head {a : Char} {as s : List Char} (h : pfxB (a :: as) s = true) :
    ∃ s', s = a :: s' := by
  cases s with
  | nil =>
    rw [show pfxB (a :: as) [] = false from rfl] at h
    cases h
  | cons c cs =>
    by_cases hac : a = c
    · exact ⟨cs, by rw [hac]⟩
    · rw [pfxB_cons_neg hac] at h
      cases h

/-- The scanner step at a line starting a function definition of the
keyword form dispatches into the function branch. -/
theorem scanAuxF_func_step {lines : List (List Char)} {i : Nat} (fuel : Nat)
    (h : i < lines.length)
    (hfun : matchFuncAlt1 (pyStrip (lines.get ⟨i, h⟩)) = true) :
    scanAuxF lines (fuel + 1) i =
      (match funcLoopF lines (lines.length + 1) i 0 false [] with
       | (j, some content) => content :: scanAuxF lines fuel j
       | (j, none) => scanAuxF lines fuel j) := by
  have hpfx : pfxB ('f' :: (("unction").data)) (pyStrip (lines.get ⟨i, h⟩)) = true :=
    ((Bool.and_eq_true _ _).mp hfun).1
  obtain ⟨t', ht⟩ := pfxB_head hpfx
  have hc1 : pfxB (("//").data) (pyStrip (lines.get ⟨i, h⟩)) = false := by
    rw [ht]
    exact pfxB_cons_neg (by decide) _ _
  have hc2 : (pyStrip (lines.get ⟨i, h⟩)).isEmpty = false := by
    rw [ht]
    rfl
  have hc3 : pfxB (("/*").data) (pyStrip (lines.get ⟨i, h⟩)) = false := by
    rw [ht]
    exact pfxB_cons_neg (by decide) _ _
  have hc4 : matchModule (pyStrip (lines.get ⟨i, h⟩)) = false := by
    unfold matchModule
    rw [ht]
    rw [show pfxB (("module").data) ('f' :: t') = false from
      pfxB_cons_neg (by decide) _ _]
    rfl
  have hc5 : matchVar (pyStrip (lines.get ⟨i, h⟩)) = false := by
    rw [ht]
    rfl
  have hc6 : matchFunc (pyStrip (lines.get ⟨i, h⟩)) = true := by
    unfold matchFunc matchFuncAlt1
    rw [ht]
    rw [show pfxB (("function").data) ('f' :: t') = pfxB (("unction").data) t' from
      by simp [pfxB]]
    have hfun2 := hfun
    unfold matchFuncAlt1 at hfun2
    rw [ht] at hfun2
    rw [show pfxB (("function").data) ('f' :: t') = pfxB (("unction").data) t' from
      by simp [pfxB]] at hfun2
    rw [hfun2]
    rfl
  simp only [scanAuxF]
  rw [dif_pos h]
  simp only [hc1, hc2, hc3, hc4, hc5, hc6, Bool.or_false, Bool.false_eq_true,
    if_false, if_true]

/-- C6 (amended): for a first line that starts a function definition of
the keyword form (function name ...), the scanner emits as its first span
exactly the lines up to the claim-side end line: the first line carrying a
semicolon at combined bracket depth zero on or after the line containing
the equals sign (a terminator seen before any equals sign does not end the
span), each accumulated line followed by a newline. -/
theorem c6_function_branch_rule (code : List Char) (j : Nat)
    (hfun : matchFuncAlt1 (pyStrip ((scanLines code).getD 0 [])) = true)
    (hend : claimEnd (scanLines code) 0 = some j) :
    (extract_modules_and_functions code).head? =
      some (catNl (sliceL (scanLines code) 0 (j + 1))) := by
  have h0 : 0 < (scanLines code).length := by
    simp [scanLines]
  rw [getD_eq_get h0] at hfun
  unfold extract_modules_and_functions
  rw [scanAuxF_func_step _ h0 hfun]
  have hrun := funcLoopF_claim (scanLines code) ((scanLines code).length + 1) 0 []
    (by omega) (Nat.zero_le _)
  rw [show ((0 : Int)) = prefixDepth (scanLines code) 0 from rfl,
    show false = eqSeenUpTo (scanLines code) 0 from rfl, hrun, hend]
  simp [List.nil_append]

theorem c6_witness :
    (extract_modules_and_functions
        (("function f(x) =\n  x + 1;\ncube();").data)).head? =
      some (catNl (sliceL
        (scanLines (("function f(x) =\n  x + 1;\ncube();").data)) 0 2)) :=
  c6_function_branch_rule (("function f(x) =\n  x + 1;\ncube();").data) 1
    (by decide) (by decide)

/-- C6 counterexample: a line of the form _NAME = function is not handled
by the claimed combined-depth rule but by the internal-variable branch,
which ignores braces and tests for the semicolon at line granularity: on
the input _f = function (a) / {a; b} / ; the claim-side rule ends the span
at line 2 (the semicolons of line 1 sit at brace depth one), yet the
scanner emits only the first two lines, stopping at the brace-protected
semicolon. -/
theorem c6_counterexample :
    matchFuncAlt2 (pyStrip ((scanLines
        (("_f = function (a)\n  {a; b}\n;").data)).getD 0 [])) = true ∧
    claimEnd (scanLines (("_f = function (a)\n  {a; b}\n;").data)) 0 = some 2 ∧
    extract_modules_and_functions (("_f = function (a)\n  {a; b}\n;").data) =
      [("_f = function (a)\n  {a; b}").data] ∧
    (extract_modules_and_functions (("_f = function (a)\n  {a; b}\n;").data)).head? ≠
      some (catNl (sliceL (scanLines
        (("_f = function (a)\n  {a; b}\n;").data)) 0 3)) := by
  decide

/-! ### C7: totality of the scanner, truncation and end-of-input closure -/

theorem blockEndF_lb (lines : List (List Char)) :
    ∀ (fuel k : Nat), k + 1 ≤ blockEndF lines fuel k := by
  intro fuel
  induction fuel with
  | zero => intro k; exact le_rfl
  | succ fuel ih =>
    intro k
    simp only [blockEndF]
    by_cases h : k < lines.length
    · rw [dif_pos h]
      split
      · exact le_rfl
      · exact le_trans (Nat.le_succ _) (ih (k + 1))
    · rw [dif_neg h]

theorem moduleEndF_at_end (lines : List (List Char)) :
    ∀ (fuel k : Nat) (f : Bool) (c : Int), lines.length ≤ k →
      moduleEndF lines fuel k f c = k := by
  intro fuel
  cases fuel with
  | zero => intro k f c _; rfl
  | succ fuel =>
    intro k f c h
    simp only [moduleEndF]
    rw [dif_neg (by omega)]

theorem moduleEndF_lb (lines : List (List Char)) :
    ∀ (fuel k : Nat) (f : Bool) (c : Int), k < lines.length →
      lines.length ≤ fuel + k → k + 1 ≤ moduleEndF lines fuel k f c := by
  intro fuel
  induction fuel with
  | zero => intro k f c hk hf; omega
  | succ fuel ih =>
    intro k f c hk hf
    have hgen : ∀ (cond : Bool) (c2 : Int), k + 1 ≤
        (if cond = true then k + 1
         else moduleEndF lines fuel (k + 1)
           (f || elemB '{' (lines.get ⟨k, hk⟩)) c2) := by
      intro cond c2
      split
      · exact le_rfl
      · by_cases h2 : k + 1 < lines.length
        · exact le_trans (Nat.le_succ _) (ih (k + 1) _ _ h2 (by omega))
        · rw [moduleEndF_at_end lines fuel (k + 1) _ _ (by omega)]
    simp only [moduleEndF]
    rw [dif_pos hk]
    exact hgen _ _

theorem varLoopF_lb (lines : List (List Char)) :
    ∀ (fuel k : Nat) (d : Int) (c : List Char),
      k + 1 ≤ (varLoopF lines fuel k d c).1 := by
  intro fuel
  induction fuel with
  | zero => intro k d c; exact le_rfl
  | succ fuel ih =>
    intro k d c
    simp only [varLoopF]
    by_cases h : k < lines.length
    · rw [dif_pos h]
      split
      · split
        · exact le_rfl
        · exact le_trans (Nat.le_succ _) (ih (k + 1) _ _)
      · exact le_rfl
    · rw [dif_neg h]

theorem funcLoopF_at_end (lines : List (List Char)) :
    ∀ (fuel k : Nat) (d : Int) (fl : Bool) (c : List Char), lines.length ≤ k →
      funcLoopF lines fuel k d fl c = (k, none) := by
  intro fuel
  cases fuel with
  | zero => intro k d fl c _; rfl
  | succ fuel =>
    intro k d fl c h
    simp only [funcLoopF]
    rw [dif_neg (by omega)]

theorem funcLoopF_lb (lines : List (List Char)) :
    ∀ (fuel k : Nat) (d : Int) (fl : Bool) (c : List Char), k < lines.length →
      lines.length ≤ fuel + k → k + 1 ≤ (funcLoopF lines fuel k d fl c).1 := by
  intro fuel
  induction fuel with
  | zero => intro k d fl c hk hf; omega
  | succ fuel ih =>
    intro k d fl c hk hf
    simp only [funcLoopF]
    rw [dif_pos hk]
    cases hscan : funcLineScan (fl || elemB '=' (lines.get ⟨k, hk⟩))
        (lines.get ⟨k, hk⟩) d with
    | none => exact le_rfl
    | some d2 =>
      show k + 1 ≤ (funcLoopF lines fuel (k + 1) d2
        (fl || elemB '=' (lines.get ⟨k, hk⟩))
        (c ++ lines.get ⟨k, hk⟩ ++ ['\n'])).1
      by_cases h2 : k + 1 < lines.length
      · exact le_trans (Nat.le_succ _) (ih (k + 1) _ _ _ h2 (by omega))
      · rw [funcLoopF_at_end lines fuel (k + 1) _ _ _ (by omega)]

theorem scanAuxF_end (lines : List (List Char)) :
    ∀ (fuel k : Nat), lines.length ≤ k → scanAuxF lines fuel k = [] := by
  intro fuel
  cases fuel with
  | zero => intro k _; rfl
  | succ fuel =>
    intro k h
    simp only [scanAuxF]
    rw [dif_neg (by omega)]

/-- Fuel stability of the scanner loop: any fuel covering the remaining
lines yields the same result (every step advances the line index, so the
loop needs at most one fuel unit per line). -/
theorem scanAuxF_stable (lines : List (List Char)) :
    ∀ (f1 f2 i : Nat), lines.length ≤ f1 + i → lines.length ≤ f2 + i →
      scanAuxF lines (f1 + 1) i = scanAuxF lines (f2 + 1) i := by
  intro f1
  induction f1 with
  | zero =>
    intro f2 i h1 h2
    rw [scanAuxF_end lines 1 i (by omega), scanAuxF_end lines (f2 + 1) i (by omega)]
  | succ f1 ih =>
    intro f2 i h1 h2
    by_cases h : i < lines.length
    · cases f2 with
      | zero => omega
      | succ f2 =>
        have hrec : ∀ j, i + 1 ≤ j → scanAuxF lines (f1 + 1) j = scanAuxF lines (f2 + 1) j := by
          intro j hj
          by_cases hjl : j < lines.length
          · exact ih f2 j (by omega) (by omega)
          · rw [scanAuxF_end lines (f1 + 1) j (by omega),
              scanAuxF_end lines (f2 + 1) j (by omega)]
        conv_lhs => rw [scanAuxF]
        conv_rhs => rw [scanAuxF]
        rw [dif_pos h, dif_pos h]
        by_cases c1 : (pfxB (("//").data) (pyStrip (lines.get ⟨i, h⟩)) ||
            (pyStrip (lines.get ⟨i, h⟩)).isEmpty) = true
        · rw [if_pos c1, if_pos c1]
          exact hrec (i + 1) le_rfl
        · rw [if_neg c1, if_neg c1]
          by_cases c2 : pfxB (("/*").data) (pyStrip (lines.get ⟨i, h⟩)) = true
          · rw [if_pos c2, if_pos c2]
            exact hrec _ (blockEndF_lb lines _ i)
          · rw [if_neg c2, if_neg c2]
            by_cases c3 : matchModule (pyStrip (lines.get ⟨i, h⟩)) = true
            · rw [if_pos c3, if_pos c3,
                hrec _ (moduleEndF_lb lines _ i false 0 h (by omega))]
            · rw [if_neg c3, if_neg c3]
              by_cases c4 : matchVar (pyStrip (lines.get ⟨i, h⟩)) = true
              · rw [if_pos c4, if_pos c4]
                by_cases c5 : elemB ';' (lines.get ⟨i, h⟩) = true
                · rw [if_pos c5, if_pos c5, hrec (i + 1) le_rfl]
                · rw [if_neg c5, if_neg c5]
                  cases hvl : varLoopF lines (lines.length + 1) (i + 1)
                      (parenDelta (pyStrip (lines.get ⟨i, h⟩)))
                      (lines.get ⟨i, h⟩) with
                  | mk j content =>
                    have h5 := varLoopF_lb lines (lines.length + 1) (i + 1)
                      (parenDelta (pyStrip (lines.get ⟨i, h⟩))) (lines.get ⟨i, h⟩)
                    rw [hvl] at h5
                    have hjb : i + 1 ≤ j := le_trans (Nat.le_succ _) h5
                    show content :: scanAuxF lines (f1 + 1) j =
                      content :: scanAuxF lines (f2 + 1) j
                    rw [hrec j hjb]
              · rw [if_neg c4, if_neg c4]
                by_cases c6 : matchFunc (pyStrip (lines.get ⟨i, h⟩)) = true
                · rw [if_pos c6, if_pos c6]
                  cases hfl : funcLoopF lines (lines.length + 1) i 0 false [] with
                  | mk j oc =>
                    have h5 := funcLoopF_lb lines (lines.length + 1) i 0 false [] h
                      (by omega)
                    rw [hfl] at h5
                    have hjb : i + 1 ≤ j := h5
                    cases oc with
                    | some content =>
                      show content :: scanAuxF lines (f1 + 1) j =
                        content :: scanAuxF lines (f2 + 1) j
                      rw [hrec j hjb]
                    | none =>
                      show scanAuxF lines (f1 + 1) j = scanAuxF lines (f2 + 1) j
                      exact hrec j hjb
                · rw [if_neg c6, if_neg c6]
                  exact hrec (i + 1) le_rfl
    · rw [scanAuxF_end lines (f1 + 1 + 1) i (by omega),
        scanAuxF_end lines (f2 + 1) i (by omega)]


/-! ### C7: scanner totality, truncation at end of input, EOF closure -/

theorem braceSumTo_self (lines : List (List Char)) (f : Nat) :
    braceSumTo lines f f = 0 := by
  simp [braceSumTo, sliceL]

theorem sliceL_snoc {lines : List (List Char)} {f j : Nat} (hfj : f ≤ j)
    (h : j < lines.length) :
    sliceL lines f (j + 1) = sliceL lines f j ++ [lines.get ⟨j, h⟩] := by
  unfold sliceL
  rw [show j + 1 - f = (j - f) + 1 from by omega, List.take_succ,
    List.getElem?_drop, show f + (j - f) = j from by omega,
    List.getElem?_eq_getElem h]
  simp [List.get_eq_getElem]

theorem braceSumTo_succ {lines : List (List Char)} {f j : Nat} (hfj : f ≤ j)
    (h : j < lines.length) :
    braceSumTo lines f (j + 1) =
      braceSumTo lines f j + braceDelta (lines.get ⟨j, h⟩) := by
  unfold braceSumTo
  rw [sliceL_snoc hfj h, List.map_append, List.sum_append]
  simp

theorem sliceL_all (lines : List (List Char)) :
    sliceL lines 0 lines.length = lines := by
  simp [sliceL, List.take_length]

theorem joinNl_concat_nil {L : List (List Char)} (h : L ≠ []) :
    joinNl (L ++ [[]]) = joinNl L ++ ['\n'] := by
  unfold joinNl
  induction L with
  | nil => simp at h
  | cons a M ih =>
    cases M with
    | nil => simp [List.intercalate, List.intersperse]
    | cons b M2 =>
      have h1 : List.intercalate ['\n'] ((a :: b :: M2) ++ [[]]) =
          a ++ ['\n'] ++ List.intercalate ['\n'] ((b :: M2) ++ [[]]) := by
        simp [List.intercalate, List.intersperse]
      have h2 : List.intercalate ['\n'] (a :: b :: M2) =
          a ++ ['\n'] ++ List.intercalate ['\n'] (b :: M2) := by
        simp [List.intercalate, List.intersperse]
      rw [h1, h2, ih (by simp)]
      simp

theorem moduleEndF_noopen (lines : List (List Char)) :
    ∀ (fuel i : Nat) (cnt : Int), lines.length ≤ fuel + i → i ≤ lines.length →
      (∀ k, i ≤ k → k < lines.length → elemB '{' (lines.getD k []) = false) →
      moduleEndF lines fuel i false cnt = lines.length := by
  intro fuel
  induction fuel with
  | zero =>
    intro i cnt h1 h2 _
    rw [show moduleEndF lines 0 i false cnt = i from rfl]
    omega
  | succ fuel ih =>
    intro i cnt h1 h2 hno
    by_cases h : i < lines.length
    · have helem : elemB '{' (lines.get ⟨i, h⟩) = false := by
        rw [← getD_eq_get h]
        exact hno i le_rfl h
      simp only [moduleEndF]
      rw [dif_pos h, helem]
      simp only [Bool.or_false, Bool.false_and, Bool.false_eq_true, if_false,
        Bool.and_false]
      exact ih (i + 1) cnt (by omega) h (fun k hk hk2 => hno k (by omega) hk2)
    · rw [moduleEndF_at_end lines (fuel + 1) i false cnt (by omega)]
      omega

theorem moduleEndF_open_noclose (lines : List (List Char)) (f : Nat) :
    ∀ (fuel i : Nat), lines.length ≤ fuel + i → f < i → i ≤ lines.length →
      (∀ j, j < lines.length → f ≤ j → braceSumTo lines f (j + 1) ≠ 0) →
      moduleEndF lines fuel i true (braceSumTo lines f i) = lines.length := by
  intro fuel
  induction fuel with
  | zero =>
    intro i h1 hfi h2 _
    rw [show moduleEndF lines 0 i true (braceSumTo lines f i) = i from rfl]
    omega
  | succ fuel ih =>
    intro i h1 hfi h2 hno
    by_cases h : i < lines.length
    · have hcl : braceSumTo lines f i + braceDelta (lines.get ⟨i, h⟩) ≠ 0 := by
        rw [← braceSumTo_succ (by omega) h]
        exact hno i h (by omega)
      simp only [moduleEndF]
      rw [dif_pos h]
      simp only [Bool.not_true, Bool.and_false, Bool.false_eq_true, if_false,
        Bool.true_or, Bool.true_and, if_true, decide_eq_true_eq]
      rw [if_neg hcl, ← braceSumTo_succ (by omega) h]
      exact ih (i + 1) (by omega) (by omega) h hno
    · rw [moduleEndF_at_end lines (fuel + 1) i true _ (by omega)]
      omega

theorem moduleEndF_first_open_noclose (lines : List (List Char)) :
    ∀ (fuel i : Nat) (cnt : Int) (h : i < lines.length),
      lines.length ≤ fuel + i →
      elemB '{' (lines.get ⟨i, h⟩) = true →
      (∀ j, j < lines.length → i ≤ j → braceSumTo lines i (j + 1) ≠ 0) →
      moduleEndF lines fuel i false cnt = lines.length := by
  intro fuel i cnt h h1 helem hno
  cases fuel with
  | zero => omega
  | succ fuel =>
    have hd : braceDelta (lines.get ⟨i, h⟩) ≠ 0 := by
      have hx := hno i h le_rfl
      rwa [braceSumTo_succ le_rfl h, braceSumTo_self, zero_add] at hx
    simp only [moduleEndF]
    rw [dif_pos h, helem]
    simp only [Bool.not_false, Bool.and_true, Bool.or_true, Bool.false_or,
      Bool.true_and, if_true, decide_eq_true_eq, zero_add]
    rw [if_neg hd]
    have hcv : braceDelta (lines.get ⟨i, h⟩) = braceSumTo lines i (i + 1) := by
      rw [braceSumTo_succ le_rfl h, braceSumTo_self, zero_add]
    rw [hcv]
    exact moduleEndF_open_noclose lines i fuel (i + 1) (by omega) (by omega) h hno

theorem moduleEndF_noclose (lines : List (List Char)) (f : Nat) :
    ∀ (fuel i : Nat) (cnt : Int), lines.length ≤ fuel + i → i ≤ f →
      f < lines.length →
      (∀ k, k < f → elemB '{' (lines.getD k []) = false) →
      elemB '{' (lines.getD f []) = true →
      (∀ j, j < lines.length → f ≤ j → braceSumTo lines f (j + 1) ≠ 0) →
      moduleEndF lines fuel i false cnt = lines.length := by
  intro fuel
  induction fuel with
  | zero => intro i cnt h1 h2 h3 _ _ _; omega
  | succ fuel ih =>
    intro i cnt h1 h2 h3 hpre hopen hno
    rcases Nat.eq_or_lt_of_le h2 with heq | hlt
    · subst heq
      have h : i < lines.length := h3
      rw [getD_eq_get h] at hopen
      exact moduleEndF_first_open_noclose lines (fuel + 1) i cnt h (by omega)
        hopen hno
    · have h : i < lines.length := by omega
      have helem : elemB '{' (lines.get ⟨i, h⟩) = false := by
        rw [← getD_eq_get h]
        exact hpre i hlt
      simp only [moduleEndF]
      rw [dif_pos h, helem]
      simp only [Bool.or_false, Bool.false_and, Bool.false_eq_true, if_false,
        Bool.and_false]
      exact ih (i + 1) cnt (by omega) hlt h3 hpre hopen hno

theorem moduleEndF_open_close (lines : List (List Char)) (f j0 : Nat) :
    ∀ (fuel i : Nat), lines.length ≤ fuel + i → f < i → i ≤ j0 →
      j0 < lines.length →
      (∀ j, j < j0 → f ≤ j → braceSumTo lines f (j + 1) ≠ 0) →
      braceSumTo lines f (j0 + 1) = 0 →
      moduleEndF lines fuel i true (braceSumTo lines f i) = j0 + 1 := by
  intro fuel
  induction fuel with
  | zero => intro i h1 h2 h3 h4 _ _; omega
  | succ fuel ih =>
    intro i h1 hfi hij0 hj0 hno hstop
    have h : i < lines.length := by omega
    simp only [moduleEndF]
    rw [dif_pos h]
    simp only [Bool.not_true, Bool.and_false, Bool.false_eq_true, if_false,
      Bool.true_or, Bool.true_and, if_true, decide_eq_true_eq]
    rw [← braceSumTo_succ (by omega) h]
    rcases Nat.eq_or_lt_of_le hij0 with heq | hlt
    · subst heq
      rw [if_pos hstop]
    · rw [if_neg (hno i hlt (by omega))]
      exact ih (i + 1) (by omega) (by omega) hlt hj0 hno hstop

theorem moduleEndF_first_open_close (lines : List (List Char)) (j0 : Nat) :
    ∀ (fuel i : Nat) (cnt : Int) (h : i < lines.length),
      lines.length ≤ fuel + i → i ≤ j0 → j0 < lines.length →
      elemB '{' (lines.get ⟨i, h⟩) = true →
      (∀ j, j < j0 → i ≤ j → braceSumTo lines i (j + 1) ≠ 0) →
      braceSumTo lines i (j0 + 1) = 0 →
      moduleEndF lines fuel i false cnt = j0 + 1 := by
  intro fuel i cnt h h1 hij0 hj0 helem hno hstop
  cases fuel with
  | zero => omega
  | succ fuel =>
    simp only [moduleEndF]
    rw [dif_pos h, helem]
    simp only [Bool.not_false, Bool.and_true, Bool.or_true, Bool.false_or,
      Bool.true_and, if_true, decide_eq_true_eq, zero_add]
    have hcv : braceDelta (lines.get ⟨i, h⟩) = braceSumTo lines i (i + 1) := by
      rw [braceSumTo_succ le_rfl h, braceSumTo_self, zero_add]
    rw [hcv]
    rcases Nat.eq_or_lt_of_le hij0 with heq | hlt
    · subst heq
      rw [if_pos hstop]
    · rw [if_neg (hno i hlt le_rfl)]
      exact moduleEndF_open_close lines i j0 fuel (i + 1) (by omega) (by omega)
        hlt hj0 hno hstop

theorem moduleEndF_close (lines : List (List Char)) (f j0 : Nat) :
    ∀ (fuel i : Nat) (cnt : Int), lines.length ≤ fuel + i → i ≤ f → f ≤ j0 →
      j0 < lines.length →
      (∀ k, k < f → elemB '{' (lines.getD k []) = false) →
      elemB '{' (lines.getD f []) = true →
      (∀ j, j < j0 → f ≤ j → braceSumTo lines f (j + 1) ≠ 0) →
      braceSumTo lines f (j0 + 1) = 0 →
      moduleEndF lines fuel i false cnt = j0 + 1 := by
  intro fuel
  induction fuel with
  | zero => intro i cnt h1 h2 h3 h4 _ _ _ _; omega
  | succ fuel ih =>
    intro i cnt h1 h2 h3 h4 hpre hopen hno hstop
    rcases Nat.eq_or_lt_of_le h2 with heq | hlt
    · subst heq
      have h : i < lines.length := by omega
      rw [getD_eq_get h] at hopen
      exact moduleEndF_first_open_close lines j0 (fuel + 1) i cnt h (by omega)
        (by omega) h4 hopen hno hstop
    · have h : i < lines.length := by omega
      have helem : elemB '{' (lines.get ⟨i, h⟩) = false := by
        rw [← getD_eq_get h]
        exact hpre i hlt
      simp only [moduleEndF]
      rw [dif_pos h, helem]
      simp only [Bool.or_false, Bool.false_and, Bool.false_eq_true, if_false,
        Bool.and_false]
      exact ih (i + 1) cnt (by omega) hlt h3 h4 hpre hopen hno hstop

/-- The scanner step at a line whose stripped form is a comment or empty
skips to the next line. -/
theorem scanAuxF_skip_step {lines : List (List Char)} {i : Nat} (fuel : Nat)
    (h : i < lines.length)
    (hc : (pfxB (("//").data) (pyStrip (lines.get ⟨i, h⟩)) ||
      (pyStrip (lines.get ⟨i, h⟩)).isEmpty) = true) :
    scanAuxF lines (fuel + 1) i = scanAuxF lines fuel (i + 1) := by
  conv_lhs => rw [scanAuxF]
  rw [dif_pos h, if_pos hc]

/-- The scanner step at a line starting a module definition dispatches
into the module branch. -/
theorem scanAuxF_module_step {lines : List (List Char)} {i : Nat} (fuel : Nat)
    (h : i < lines.length)
    (hmod : matchModule (pyStrip (lines.get ⟨i, h⟩)) = true) :
    scanAuxF lines (fuel + 1) i =
      joinNl (sliceL lines i (moduleEndF lines (lines.length + 1) i false 0)) ::
        scanAuxF lines fuel (moduleEndF lines (lines.length + 1) i false 0) := by
  have hpfx : pfxB ('m' :: (("odule").data)) (pyStrip (lines.get ⟨i, h⟩)) = true :=
    ((Bool.and_eq_true _ _).mp hmod).1
  obtain ⟨t', ht⟩ := pfxB_head hpfx
  have hc1 : pfxB (("//").data) (pyStrip (lines.get ⟨i, h⟩)) = false := by
    rw [ht]
    exact pfxB_cons_neg (by decide) _ _
  have hc2 : (pyStrip (lines.get ⟨i, h⟩)).isEmpty = false := by
    rw [ht]
    rfl
  have hc3 : pfxB (("/*").data) (pyStrip (lines.get ⟨i, h⟩)) = false := by
    rw [ht]
    exact pfxB_cons_neg (by decide) _ _
  simp only [scanAuxF]
  rw [dif_pos h]
  simp only [hc1, hc2, hc3, hmod, Bool.or_false, Bool.false_eq_true, if_false,
    if_true]


/-- C7: extract_modules_and_functions is total: any fuel at or above the
baseline yields the same result, so the line loop terminates within one
step per line on every input.  A module definition whose braces never
balance before the input ends is emitted as a span silently truncated at
end of input (the whole remaining text, closed by the synthetic empty
line's newline), and a module definition whose braces balance exactly on
the last real line of the input is still closed and emitted in full. -/
theorem c7_scanner_total_truncation_eof :
    (∀ (code : List Char) (extra : Nat),
        scanAuxF (scanLines code) ((scanLines code).length + 1 + extra) 0 =
          extract_modules_and_functions code) ∧
    (∀ (code : List Char),
        matchModule (pyStrip ((scanLines code).getD 0 [])) = true →
        (∀ g, g < (scanLines code).length →
            (∀ k, k < g → elemB '{' ((scanLines code).getD k []) = false) →
            elemB '{' ((scanLines code).getD g []) = true →
            ∀ j, j < (scanLines code).length → g ≤ j →
              braceSumTo (scanLines code) g (j + 1) ≠ 0) →
        extract_modules_and_functions code =
          [joinNl (pySplitlines code) ++ ['\n']]) ∧
    (∀ (code : List Char) (f : Nat),
        matchModule (pyStrip ((scanLines code).getD 0 [])) = true →
        f < (pySplitlines code).length →
        (∀ k, k < f → elemB '{' ((scanLines code).getD k []) = false) →
        elemB '{' ((scanLines code).getD f []) = true →
        (∀ j, j < (pySplitlines code).length - 1 → f ≤ j →
            braceSumTo (scanLines code) f (j + 1) ≠ 0) →
        braceSumTo (scanLines code) f (pySplitlines code).length = 0 →
        extract_modules_and_functions code = [joinNl (pySplitlines code)]) := by
  refine ⟨?_, ?_, ?_⟩
  · intro code extra
    unfold extract_modules_and_functions
    rw [show (scanLines code).length + 1 + extra =
      ((scanLines code).length + extra) + 1 from by omega]
    exact scanAuxF_stable (scanLines code) ((scanLines code).length + extra)
      ((scanLines code).length) 0 (by omega) (by omega)
  · intro code hmod hnb
    have h0 : 0 < (scanLines code).length := by
      simp [scanLines]
    have hne : pySplitlines code ≠ [] := by
      intro hemp
      rw [show scanLines code = pySplitlines code ++ [[]] from rfl, hemp] at hmod
      exact absurd hmod (by decide)
    have hend : moduleEndF (scanLines code) ((scanLines code).length + 1) 0
        false 0 = (scanLines code).length := by
      by_cases hex : ∃ g, g < (scanLines code).length ∧
          elemB '{' ((scanLines code).getD g []) = true
      · have hglt := (Nat.find_spec hex).1
        have hgopen := (Nat.find_spec hex).2
        have hpre : ∀ k, k < Nat.find hex →
            elemB '{' ((scanLines code).getD k []) = false := by
          intro k hk
          have hmin := Nat.find_min hex hk
          cases hb : elemB '{' ((scanLines code).getD k []) with
          | false => rfl
          | true => exact absurd ⟨by omega, hb⟩ hmin
        exact moduleEndF_noclose (scanLines code) (Nat.find hex)
          ((scanLines code).length + 1) 0 0 (by omega) (Nat.zero_le _) hglt
          hpre hgopen (hnb (Nat.find hex) hglt hpre hgopen)
      · have hnone : ∀ k, 0 ≤ k → k < (scanLines code).length →
            elemB '{' ((scanLines code).getD k []) = false := by
          intro k _ hk
          cases hb : elemB '{' ((scanLines code).getD k []) with
          | false => rfl
          | true => exact absurd ⟨k, hk, hb⟩ hex
        exact moduleEndF_noopen (scanLines code) ((scanLines code).length + 1)
          0 0 (by omega) (Nat.zero_le _) hnone
    rw [getD_eq_get h0] at hmod
    unfold extract_modules_and_functions
    rw [scanAuxF_module_step ((scanLines code).length) h0 hmod, hend, sliceL_all,
      scanAuxF_end (scanLines code) ((scanLines code).length)
        ((scanLines code).length) le_rfl,
      show scanLines code = pySplitlines code ++ [[]] from rfl,
      joinNl_concat_nil hne]
  · intro code f hmod hflt hpre hopen hno hstop
    have hlen : (scanLines code).length = (pySplitlines code).length + 1 := by
      simp [scanLines]
    have h0 : 0 < (scanLines code).length := by omega
    have hj0 : (pySplitlines code).length - 1 + 1 = (pySplitlines code).length := by
      omega
    have hstop2 : braceSumTo (scanLines code) f
        ((pySplitlines code).length - 1 + 1) = 0 := by
      rw [hj0]
      exact hstop
    have hend : moduleEndF (scanLines code) ((scanLines code).length + 1) 0
        false 0 = (pySplitlines code).length - 1 + 1 :=
      moduleEndF_close (scanLines code) f ((pySplitlines code).length - 1)
        ((scanLines code).length + 1) 0 0 (by omega) (Nat.zero_le _) (by omega)
        (by omega) hpre hopen hno hstop2
    rw [getD_eq_get h0] at hmod
    unfold extract_modules_and_functions
    rw [scanAuxF_module_step ((scanLines code).length) h0 hmod, hend, hj0]
    have hsl : sliceL (scanLines code) 0 (pySplitlines code).length =
        pySplitlines code := by
      simp only [sliceL, List.drop_zero, Nat.sub_zero]
      rw [show scanLines code = pySplitlines code ++ [[]] from rfl]
      exact List.take_left _ _
    rw [hsl]
    have hidx : (pySplitlines code).length < (scanLines code).length := by omega
    have hget : (scanLines code).get ⟨(pySplitlines code).length, hidx⟩ = [] :=
      List.getElem_concat_length (pySplitlines code) ([] : List Char)
        (pySplitlines code).length rfl (by simp)
    rw [hlen,
      scanAuxF_skip_step ((pySplitlines code).length) hidx (by rw [hget]; decide),
      scanAuxF_end (scanLines code) ((pySplitlines code).length)
        ((pySplitlines code).length + 1) (by omega)]

theorem c7_witness :
    scanAuxF (scanLines (("cube();").data))
        ((scanLines (("cube();").data)).length + 1 + 5) 0 =
      extract_modules_and_functions (("cube();").data) ∧
    extract_modules_and_functions (("module unbalanced() \x7b\n  cube();").data) =
      [joinNl (pySplitlines (("module unbalanced() \x7b\n  cube();").data)) ++
        ['\n']] ∧
    extract_modules_and_functions (("module m() \x7b\n\x7d").data) =
      [joinNl (pySplitlines (("module m() \x7b\n\x7d").data))] :=
  ⟨c7_scanner_total_truncation_eof.1 (("cube();").data) 5,
   c7_scanner_total_truncation_eof.2.1
     (("module unbalanced() \x7b\n  cube();").data) (by decide) (by decide),
   c7_scanner_total_truncation_eof.2.2 (("module m() \x7b\n\x7d").data) 0 (by decide)
     (by decide) (by decide) (by decide) (by decide) (by decide)⟩

end Scad
